import Mathlib

/-! ## planetEater: the simulation engine

A shallow embedding of `pkg/planetarium/planets.go` and of the engine loop of `run` in
`main.go`.

* Numbers. The Go code computes in `float32` and `float64`. The embedding is generic in an
  ordered field `R` and takes the functions of Go's `math` package that the code calls
  (`math.Sqrt`, `math.Pi`, `math.Sin`, `math.Asin`) as arguments; conversions between `float32`
  and `float64` are the identity. The theorems instantiate `R` with the real numbers and these
  functions with `Real.sqrt`, `Real.pi`, `Real.sin`, `Real.arcsin`: they speak about the
  arithmetic of exact reals, not about rounding. Where a statement depends on rounding, the
  detector and `AddPartialyl` have a second embedding (`detectFl`, `AddPartialylFl`) with the
  roundings of the source made explicit.
* Bodies. A `*Planet` is a handle (`Ptr`); the bodies live in a `Heap`. Methods that only read
  (`Area`, `Distance`) are functions of the bodies; methods that write through their receiver
  (`Merge`, `AddPartialyl`) are functions of the heap that perform the writes of the source in
  the order of the source, so that aliased handles behave as in Go.
* Machine integers (`int`, `int32`) are unbounded integers; none of the statements below comes
  near the word size.
-/

namespace Planetarium

/-- A handle of a body, Go's `*Planet`: two handles denote the same body iff they are equal. -/
abbrev Ptr := Nat

/-- Go's `type Vector struct`, two `float32` fields. -/
structure Vector (R : Type) where
  X : R
  Y : R

/-- Go's `type Position struct`, two `float32` fields. -/
structure Position (R : Type) where
  X : R
  Y : R

/-- Go's `type Planet struct`. -/
structure Planet (R : Type) where
  Pos : Position R
  Vector : Vector R
  Mass : R
  Radius : R

/-- The store the handles point into. -/
abbrev Heap (R : Type) := Ptr → Planet R

/-- The error values of the package; Go's `nil` error is `none`. -/
inductive Err where
  | TooSmall
  deriving DecidableEq

section Body

variable {R : Type} [LinearOrderedField R]

/-- Go's `func NewPlanet(x, y, r float32) *Planet`: the remaining fields are zero. -/
def NewPlanet (x y r : R) : Planet R :=
  { Pos := ⟨x, y⟩, Vector := ⟨0, 0⟩, Mass := 0, Radius := r }

/-- Go's `func (p *Planet) Distance(p2 *Planet) float32`. -/
def Planet.Distance (sqrt : R → R) (p p2 : Planet R) : R :=
  let dx := p.Pos.X - p2.Pos.X
  let dy := p.Pos.Y - p2.Pos.Y
  let dx := if dx < 0 then -dx else dx
  let dy := if dy < 0 then -dy else dy
  sqrt (dx ^ 2 + dy ^ 2)

/-- Go's `func (p *Planet) Area() float64`. -/
def Planet.Area (pi : R) (p : Planet R) : R :=
  p.Radius ^ 2 * pi

/-- Go's `func (p *Planet) Merge(p2 *Planet)`: the four writes through `p`, in source order. -/
def Merge (sqrt : R → R) (pi : R) (h : Heap R) (p p2 : Ptr) : Heap R :=
  let newRadius := sqrt (((h p).Area pi + (h p2).Area pi) / pi)
  let h := Function.update h p { h p with Radius := newRadius }
  let h := Function.update h p { h p with Mass := (h p).Mass + (h p2).Mass }
  let h := Function.update h p
    { h p with Vector := { (h p).Vector with X := (h p).Vector.X - (h p).Vector.X / 20 } }
  let h := Function.update h p
    { h p with Vector := { (h p).Vector with Y := (h p).Vector.Y - (h p).Vector.Y / 20 } }
  h

/-- Go's `func (p *Planet) AddPartialyl(p2 *Planet) error`: the heap after the call and the
error. -/
def AddPartialyl (sqrt : R → R) (h : Heap R) (p p2 : Ptr) : Heap R × Option Err :=
  let distance := (h p).Distance sqrt (h p2)
  let distance := if distance < 0 then -distance else distance
  let overlap := ((h p).Radius + (h p2).Radius) - distance
  let overlap := if overlap < 0 then -overlap else overlap
  if (h p2).Radius < overlap then
    (h, some Err.TooSmall)
  else
    let g := overlap * overlap / 2 - (h p2).Radius * overlap
    let x1 := (-distance + sqrt (distance ^ 2 - 4 * g)) / 2
    let x2 := (-distance - sqrt (distance ^ 2 - 4 * g)) / 2
    let x := if x1 > 0 then x1 else if x2 > 0 then x2 else 0
    let h := Function.update h p { h p with Radius := (h p).Radius + x }
    let h := Function.update h p2 { h p2 with Radius := (h p2).Radius + (x - overlap) }
    (h, none)

/-- The value that `AddPartialyl` gives its variable `overlap`. -/
def overlapOf (sqrt : R → R) (h : Heap R) (p p2 : Ptr) : R :=
  let distance := (h p).Distance sqrt (h p2)
  let distance := if distance < 0 then -distance else distance
  let overlap := ((h p).Radius + (h p2).Radius) - distance
  if overlap < 0 then -overlap else overlap

/-- The value that `AddPartialyl` gives its variable `x` when it gets past the `TooSmall`
test. -/
def transferOf (sqrt : R → R) (h : Heap R) (p p2 : Ptr) : R :=
  let distance := (h p).Distance sqrt (h p2)
  let distance := if distance < 0 then -distance else distance
  let overlap := overlapOf sqrt h p p2
  let g := overlap * overlap / 2 - (h p2).Radius * overlap
  let x1 := (-distance + sqrt (distance ^ 2 - 4 * g)) / 2
  let x2 := (-distance - sqrt (distance ^ 2 - 4 * g)) / 2
  if x1 > 0 then x1 else if x2 > 0 then x2 else 0

/-- Go's `type Radian float32`. -/
abbrev Radian (R : Type) := R

/-- Go's `func FromDirection(r Radian, length float32) Vector`; `sin` stands for `math.Sin`. -/
def FromDirection (sin sqrt : R → R) (r : Radian R) (length : R) : Vector R :=
  let y := length * sin r
  let x := sqrt (length * length - y * y)
  ⟨x, y⟩

/-- Go's `func (v Vector) Normalize() Radian`; `asin` stands for `math.Asin`. -/
def Vector.Normalize (asin sqrt : R → R) (v : Vector R) : Radian R :=
  let x := v.X
  let y := v.Y
  let c := sqrt (x * x + y * y)
  asin (y / c)

end Body

/-! ## The generator -/

/-- An outcome of the random source: the values that the calls of `math/rand` return.
`intn` is the raw value behind the single call of `rand.Intn`, `int31 k` the raw value behind the
`k`-th call of `rand.Int31`, `float32 k` the value of the `k`-th call of `rand.Float32` (in Go a
number of `[0, 1)`). The raw integers are reduced into the range the library promises. -/
structure RandSource (R : Type) where
  intn : Nat
  int31 : Nat → Nat
  float32 : Nat → R

section Generator

variable {R : Type} [LinearOrderedField R]

/-- Go's `rand.Intn(n)`: a number of `[0, n)`; it panics (`none`) when `n ≤ 0`. -/
def RandSource.Intn (rnd : RandSource R) (n : Int) : Option Int :=
  if n ≤ 0 then none else some ((rnd.intn : Int) % n)

/-- Go's `rand.Int31()`, the `k`-th call: a number of `[0, 2^31)`. -/
def RandSource.Int31 (rnd : RandSource R) (k : Nat) : Int :=
  ((rnd.int31 k % 2 ^ 31 : Nat) : Int)

/-- The body of the loop of `GetRandomPlanets` in its `i`-th round (`i` counts from 0): the new
body, or `none` when `%` divides by zero. -/
def randomPlanet (rnd : RandSource R) (maxx maxy : Int) (i : Nat) : Option (Planet R) :=
  if maxx = 0 ∨ maxy = 0 then none
  else
    let x : R := ((Int.tmod (rnd.Int31 (2 * i)) maxx : Int) : R)
    let y : R := ((Int.tmod (rnd.Int31 (2 * i + 1)) maxy : Int) : R)
    let vx := (rnd.float32 (4 * i) * 2 - 1) * 10
    let vy := (rnd.float32 (4 * i + 1) * 2 - 1) * 10
    let r := 3 + rnd.float32 (4 * i + 2) * 20
    let m := rnd.float32 (4 * i + 3) * 10
    some { Pos := ⟨x, y⟩, Vector := ⟨vx, vy⟩, Mass := m, Radius := r }

/-- The loop `for i := 0; i <= scope; i++` of `GetRandomPlanets` with `n` rounds left to run,
the next of them being round `i`. -/
def randomPlanetsLoop (rnd : RandSource R) (maxx maxy : Int) :
    Nat → Nat → List (Planet R) → Option (List (Planet R))
  | 0, _, planets => some planets
  | n + 1, i, planets =>
    match randomPlanet rnd maxx maxy i with
    | none => none
    | some p => randomPlanetsLoop rnd maxx maxy n (i + 1) (planets ++ [p])

/-- Go's `func GetRandomPlanets(min, max int, maxx, maxy int32) (planets []*Planet)`: the bodies the
returned handles point to, in order; `none` when the call panics. The loop runs for
`i = 0, ..., scope`, that is `scope + 1` times when `0 ≤ scope` and not at all otherwise. -/
def GetRandomPlanets (rnd : RandSource R) (min max : Int) (maxx maxy : Int) :
    Option (List (Planet R)) :=
  let random : Option Int := if min = max then some 0 else rnd.Intn (max - min)
  match random with
  | none => none
  | some random =>
    let scope := random + min
    randomPlanetsLoop rnd maxx maxy (scope + 1).toNat 0 []

end Generator

/-! ## The engine loop of `run` -/

/-- A method call the resolver makes: receiver and argument. -/
inductive Call where
  | Merge (p p2 : Ptr)
  | AddPartialyl (p p2 : Ptr)
  deriving DecidableEq

/-- The receiver of a call: the absorber. -/
def Call.receiver : Call → Ptr
  | Call.Merge p _ => p
  | Call.AddPartialyl p _ => p

/-- The argument of a call: the absorbed body. -/
def Call.argument : Call → Ptr
  | Call.Merge _ p2 => p2
  | Call.AddPartialyl _ p2 => p2

/-- The state of the resolver loop: the bodies, the removal list, and a trace of the method
calls made so far. The trace is a ghost: nothing reads it. -/
structure ResolverState (R : Type) where
  heap : Heap R
  toRemove : List Ptr
  calls : List Call

section Engine

variable {R : Type} [LinearOrderedField R]

/-- The body of the inner loop of the detector for the ordered pair `(p1, p2)`. -/
def detectPair (sqrt : R → R) (h : Heap R) (p1 p2 : Ptr) (inCollision : List (Ptr × Ptr)) :
    List (Ptr × Ptr) :=
  if p1 = p2 then inCollision
  else
    let a1 := (h p1).Pos.X - (h p1).Radius
    let b1 := (h p1).Pos.X + (h p1).Radius
    let c1 := (h p1).Pos.Y - (h p1).Radius
    let d1 := (h p1).Pos.Y + (h p1).Radius
    let a2 := (h p2).Pos.X - (h p2).Radius
    let b2 := (h p2).Pos.X + (h p2).Radius
    let c2 := (h p2).Pos.Y - (h p2).Radius
    let d2 := (h p2).Pos.Y + (h p2).Radius
    if b1 < a2 ∨ a1 > b2 ∨ d1 < c2 ∨ c1 > d2 then inCollision
    else
      let treshold := (h p1).Radius + (h p2).Radius
      let distance := (h p1).Distance sqrt (h p2)
      if distance ≤ treshold then inCollision ++ [(p1, p2)] else inCollision

/-- The detector: the two nested loops over the population (`main.go`, lines 193 to 221). -/
def detect (sqrt : R → R) (h : Heap R) (planets : List Ptr) : List (Ptr × Ptr) :=
  planets.foldl
    (fun inCollision p1 =>
      planets.foldl (fun inCollision p2 => detectPair sqrt h p1 p2 inCollision) inCollision)
    []

/-- One arm of the resolver: `absorber` eats `absorbed`. The source spells this arm out twice,
once for each orientation of the pair. -/
def absorb (sqrt : R → R) (pi : R) (s : ResolverState R) (absorber absorbed : Ptr) :
    ResolverState R :=
  if (s.heap absorbed).Area pi < 1 / 10 then
    { heap := Merge sqrt pi s.heap absorber absorbed
      toRemove := s.toRemove ++ [absorbed]
      calls := s.calls ++ [Call.Merge absorber absorbed] }
  else
    let r := AddPartialyl sqrt s.heap absorber absorbed
    if r.2 = some Err.TooSmall then
      { heap := Merge sqrt pi r.1 absorber absorbed
        toRemove := s.toRemove ++ [absorbed]
        calls := s.calls ++ [Call.AddPartialyl absorber absorbed, Call.Merge absorber absorbed] }
    else
      { heap := r.1
        toRemove := s.toRemove
        calls := s.calls ++ [Call.AddPartialyl absorber absorbed] }

/-- The body of the resolver loop for one collision pair (`main.go`, lines 224 to 257). -/
def resolvePair (sqrt : R → R) (pi : R) (s : ResolverState R) (icp : Ptr × Ptr) :
    ResolverState R :=
  let p1 := icp.1
  let p2 := icp.2
  if s.toRemove.any (fun ptr => decide (p1 = ptr ∨ p2 = ptr)) then s
  else if (s.heap p1).Area pi > (s.heap p2).Area pi then absorb sqrt pi s p1 p2
  else absorb sqrt pi s p2 p1

/-- The resolver loop over the collision list. -/
def resolve (sqrt : R → R) (pi : R) (s : ResolverState R) (inCollision : List (Ptr × Ptr)) :
    ResolverState R :=
  inCollision.foldl (resolvePair sqrt pi) s

/-- The loops that collect the indices to remove (`main.go`, lines 259 to 267). -/
def collectIndices (planets toRemove : List Ptr) : List Nat :=
  toRemove.foldl
    (fun indexToRemove p =>
      planets.enum.foldl
        (fun indexToRemove irp => if p = irp.2 then indexToRemove ++ [irp.1] else indexToRemove)
        indexToRemove)
    []

/-- The call `sort.Sort(sort.Reverse(sort.IntSlice(indexToRemove)))`: the indices in descending
order. -/
def sortReverse (indexToRemove : List Nat) : List Nat :=
  indexToRemove.insertionSort (· ≥ ·)

/-- The statement `planets = append(planets[:v], planets[v+1:]...)`; the slice expression
`planets[v+1:]` panics (`none`) unless `v + 1 ≤ len(planets)`. -/
def excise (planets : List Ptr) (v : Nat) : Option (List Ptr) :=
  if v < planets.length then some (planets.take v ++ planets.drop (v + 1)) else none

/-- The excision loop (`main.go`, lines 272 to 274). -/
def exciseAll (planets : List Ptr) (indexToRemove : List Nat) : Option (List Ptr) :=
  indexToRemove.foldlM excise planets

/-- The removal pass: collect the indices, sort them descending, excise one by one. -/
def removalPass (planets toRemove : List Ptr) : Option (List Ptr) :=
  exciseAll planets (sortReverse (collectIndices planets toRemove))

/-- The first three stages of one round of the engine loop (`main.go`, lines 189 to 275):
detector, resolver from an empty removal list, removal pass. The result is the heap and the
population after the removal, `none` when the excision panics. -/
def collideAndRemove (sqrt : R → R) (pi : R) (h : Heap R) (planets : List Ptr) :
    Option (Heap R × List Ptr) :=
  let inCollision := detect sqrt h planets
  let s := resolve sqrt pi ⟨h, [], []⟩ inCollision
  match removalPass planets s.toRemove with
  | none => none
  | some planets => some (s.heap, planets)

/-- The setting `simSpeed`, the default time scale: `0.01`. -/
def simSpeed : R := 1 / 100

/-- The handler of `sdl.MouseWheelEvent` (`main.go`, lines 320 to 328): the new value of
`speed`; `eY` is the wheel delta `e.Y`. -/
def wheelUpdate (speed : R) (eY : Int) : R :=
  let speed := speed + speed / 10 * (eY : R)
  if speed < 1 / 1000 then 1 / 1000
  else if speed > 10 then 10
  else speed

/-- The events of the main loop that write `speed`: a wheel event with its delta, and a reset
(the middle mouse button, or the space key through `newGame`), which stores `simSpeed`. -/
inductive SpeedEvent where
  | wheel (eY : Int)
  | reset
  deriving DecidableEq

/-- The value of `speed` after one event. -/
def speedStep (speed : R) : SpeedEvent → R
  | SpeedEvent.wheel eY => wheelUpdate speed eY
  | SpeedEvent.reset => simSpeed

/-- The value of `speed` after a sequence of events, starting from `newGame`, which stores
`simSpeed`. -/
def speedAfter (events : List SpeedEvent) : R :=
  events.foldl speedStep simSpeed

/-- The positions at which the handle `p` occurs in `planets`. -/
def positionsOf (planets : List Ptr) (p : Ptr) : List Nat :=
  (planets.enum.filter (fun irp => decide (p = irp.2))).map Prod.fst

variable [FloorRing R]

/-- Go's `math.Mod(x, y)` for finite `x` and `y ≠ 0`: `x - y * trunc(x / y)`; the result has the
sign of `x` and a magnitude below that of `y`. -/
def Mod (x y : R) : R :=
  x - y * (if 0 ≤ x / y then ((Int.floor (x / y) : Int) : R) else ((Int.ceil (x / y) : Int) : R))

/-- The body of the motion loop (`main.go`, lines 278 to 294) for one body. -/
def moveBody (speed : R) (winX winY : Int) (p : Planet R) : Planet R :=
  let newX := p.Pos.X + p.Vector.X * speed
  let newY := p.Pos.Y + p.Vector.Y * speed
  let newX := Mod newX (winX : R)
  let newY := Mod newY (winY : R)
  let newX := if newX < 0 then (winX : R) - newX else newX
  let newY := if newY < 0 then (winY : R) - newY else newY
  { p with Pos := ⟨newX, newY⟩ }

/-- The motion loop over the population. -/
def integrate (speed : R) (winX winY : Int) (h : Heap R) (planets : List Ptr) : Heap R :=
  planets.foldl (fun h p => Function.update h p (moveBody speed winX winY (h p))) h

end Engine

/-- The heap after `n` successive calls `p.AddPartialyl(p2)`, each working on what the previous
one left (the experiment of the testable properties; a call that returns `TooSmall` leaves the
heap as it is). -/
def iterAddPartialyl {R : Type} [LinearOrderedField R] (sqrt : R → R) (h : Heap R)
    (p p2 : Ptr) : Nat → Heap R
  | 0 => h
  | n + 1 => (AddPartialyl sqrt (iterAddPartialyl sqrt h p p2 n) p p2).1

/-! ## The code's rounded arithmetic

The definitions above compute exactly. The ones below follow the same source lines and apply a
rounding function to the result of every `float32` operation (`f32`) and of every `float64`
operation (`f64`) of the source; negation and the conversion of a `float32` to `float64` are
exact and are not rounded. With `f32 = f64 = id` they are the exact definitions.
`roundBinary 24` and `roundBinary 53` are IEEE 754 rounding to nearest, ties to even, for
`float32` and `float64` with an unbounded exponent range; `math.Sqrt` and `math.Pow(x, 2)` are
correctly rounded, and products are not fused with sums. -/

section Rounded

variable {R : Type} [LinearOrderedField R]

/-- Go's `func (p *Planet) Distance(p2 *Planet) float32` in rounded arithmetic. -/
def Planet.DistanceFl (f32 f64 sqrt : R → R) (p p2 : Planet R) : R :=
  let dx := f32 (p.Pos.X - p2.Pos.X)
  let dy := f32 (p.Pos.Y - p2.Pos.Y)
  let dx := if dx < 0 then -dx else dx
  let dy := if dy < 0 then -dy else dy
  f32 (f64 (sqrt (f64 (f64 (dx ^ 2) + f64 (dy ^ 2)))))

/-- The body of the inner loop of the detector in rounded arithmetic. -/
def detectPairFl (f32 f64 sqrt : R → R) (h : Heap R) (p1 p2 : Ptr)
    (inCollision : List (Ptr × Ptr)) : List (Ptr × Ptr) :=
  if p1 = p2 then inCollision
  else
    let a1 := f32 ((h p1).Pos.X - (h p1).Radius)
    let b1 := f32 ((h p1).Pos.X + (h p1).Radius)
    let c1 := f32 ((h p1).Pos.Y - (h p1).Radius)
    let d1 := f32 ((h p1).Pos.Y + (h p1).Radius)
    let a2 := f32 ((h p2).Pos.X - (h p2).Radius)
    let b2 := f32 ((h p2).Pos.X + (h p2).Radius)
    let c2 := f32 ((h p2).Pos.Y - (h p2).Radius)
    let d2 := f32 ((h p2).Pos.Y + (h p2).Radius)
    if b1 < a2 ∨ a1 > b2 ∨ d1 < c2 ∨ c1 > d2 then inCollision
    else
      let treshold := f32 ((h p1).Radius + (h p2).Radius)
      let distance := (h p1).DistanceFl f32 f64 sqrt (h p2)
      if distance ≤ treshold then inCollision ++ [(p1, p2)] else inCollision

/-- The detector in rounded arithmetic. -/
def detectFl (f32 f64 sqrt : R → R) (h : Heap R) (planets : List Ptr) : List (Ptr × Ptr) :=
  planets.foldl
    (fun inCollision p1 =>
      planets.foldl (fun inCollision p2 => detectPairFl f32 f64 sqrt h p1 p2 inCollision)
        inCollision)
    []

/-- Go's `func (p *Planet) AddPartialyl(p2 *Planet) error` in rounded arithmetic. -/
def AddPartialylFl (f32 f64 sqrt : R → R) (h : Heap R) (p p2 : Ptr) : Heap R × Option Err :=
  let distance := (h p).DistanceFl f32 f64 sqrt (h p2)
  let distance := if distance < 0 then -distance else distance
  let overlap := f64 (f32 ((h p).Radius + (h p2).Radius) - distance)
  let overlap := if overlap < 0 then -overlap else overlap
  if (h p2).Radius < overlap then
    (h, some Err.TooSmall)
  else
    let g := f64 (f64 (f64 (overlap * overlap) / 2) - f64 ((h p2).Radius * overlap))
    let root := f64 (sqrt (f64 (f64 (distance ^ 2) - f64 (4 * g))))
    let x1 := f64 (f64 (-distance + root) / 2)
    let x2 := f64 (f64 (-distance - root) / 2)
    let x := if x1 > 0 then x1 else if x2 > 0 then x2 else 0
    let h := Function.update h p { h p with Radius := f32 ((h p).Radius + f32 x) }
    let h := Function.update h p2
      { h p2 with Radius := f32 ((h p2).Radius + f32 (f64 (x - overlap))) }
    (h, none)

variable [FloorRing R]

/-- Rounding to the nearest integer, ties to the even one. -/
def roundHalfEven (y : R) : Int :=
  let n := Int.floor y
  if y - (n : R) < 1 / 2 then n
  else if 1 / 2 < y - (n : R) then n + 1
  else if n % 2 = 0 then n else n + 1

/-- IEEE 754 rounding to nearest, ties to even, into the binary format with `prec` significant
bits (24 for `float32`, 53 for `float64`); the exponent range is unbounded, so there is no
overflow and there are no subnormal numbers. -/
def roundBinary (prec : Nat) (x : R) : R :=
  if x = 0 then 0
  else
    let e := Int.log 2 |x|
    let q := (2 : R) ^ (e - ((prec : Int) - 1))
    q * ((roundHalfEven (x / q) : Int) : R)

end Rounded

end Planetarium

/-! ## Theorems -/

namespace Planetarium

theorem Merge_area (h : Heap ℝ) (p p2 : Ptr) :
    ((Merge Real.sqrt Real.pi h p p2) p).Area Real.pi
      = (h p).Area Real.pi + (h p2).Area Real.pi := by
  have hpi : (0 : ℝ) < Real.pi := Real.pi_pos
  have hnn : 0 ≤ ((h p).Radius ^ 2 * Real.pi + (h p2).Radius ^ 2 * Real.pi) / Real.pi :=
    div_nonneg (add_nonneg (mul_nonneg (sq_nonneg _) hpi.le) (mul_nonneg (sq_nonneg _) hpi.le))
      hpi.le
  simp only [Merge, Planet.Area, Function.update_same]
  rw [Real.sq_sqrt hnn]
  field_simp

/-- C1. `Merge` conserves area exactly over the reals: after `p.Merge(p2)` the area of `p` is
the sum of the areas `p` and `p2` had before the call. It holds for all radii (so in particular
for non-negative ones) and also when `p` and `p2` are the same body. -/
theorem Merge_conserves_area (h : Heap ℝ) (p p2 : Ptr) :
    ((Merge Real.sqrt Real.pi h p p2) p).Area Real.pi
      = (h p).Area Real.pi + (h p2).Area Real.pi :=
  Merge_area h p p2

/-! ### The removal pass -/

theorem inner_loop_eq (p : Ptr) (l : List (Nat × Ptr)) (acc : List Nat) :
    l.foldl (fun acc irp => if p = irp.2 then acc ++ [irp.1] else acc) acc
      = acc ++ (l.filter (fun irp => decide (p = irp.2))).map Prod.fst := by
  induction l generalizing acc with
  | nil => simp
  | cons a l ih =>
    simp only [List.foldl_cons, ih, List.filter_cons]
    by_cases h : p = a.2 <;> simp [h]

theorem outer_loop_eq (planets toRemove : List Ptr) (acc : List Nat) :
    toRemove.foldl
      (fun acc p => planets.enum.foldl
        (fun acc irp => if p = irp.2 then acc ++ [irp.1] else acc) acc) acc
      = acc ++ toRemove.flatMap (positionsOf planets) := by
  induction toRemove generalizing acc with
  | nil => simp
  | cons a l ih =>
    rw [List.foldl_cons, inner_loop_eq, ih, List.flatMap_cons, List.append_assoc]
    rfl

theorem collectIndices_eq (planets toRemove : List Ptr) :
    collectIndices planets toRemove = toRemove.flatMap (positionsOf planets) := by
  simp [collectIndices, outer_loop_eq]

theorem mem_positionsOf {planets : List Ptr} {p : Ptr} {i : Nat} :
    i ∈ positionsOf planets p ↔ planets[i]? = some p := by
  simp only [positionsOf, List.mem_map, List.mem_filter, decide_eq_true_eq]
  constructor
  · rintro ⟨⟨j, q⟩, ⟨hm, hq⟩, rfl⟩
    rw [List.mk_mem_enum_iff_getElem?] at hm
    simpa [hq] using hm
  · intro h
    exact ⟨(i, p), ⟨by rw [List.mk_mem_enum_iff_getElem?]; exact h, rfl⟩, rfl⟩

theorem nodup_positionsOf (planets : List Ptr) (p : Ptr) : (positionsOf planets p).Nodup := by
  unfold positionsOf
  have h := List.nodup_enum_map_fst planets
  exact (List.Nodup.sublist ((List.filter_sublist _).map Prod.fst) h)

theorem mem_collectIndices {planets toRemove : List Ptr} {i : Nat} :
    i ∈ collectIndices planets toRemove ↔ ∃ p ∈ toRemove, planets[i]? = some p := by
  simp [collectIndices_eq, List.mem_flatMap, mem_positionsOf]

theorem nodup_collectIndices (planets toRemove : List Ptr) (hT : toRemove.Nodup) :
    (collectIndices planets toRemove).Nodup := by
  rw [collectIndices_eq, List.nodup_flatMap]
  refine ⟨fun p _ => nodup_positionsOf planets p, ?_⟩
  refine hT.imp ?_
  intro a b hab
  simp only [Function.onFun]
  rw [List.disjoint_left]
  intro i hi hj
  rw [mem_positionsOf] at hi hj
  rw [hi] at hj
  exact hab (Option.some.inj hj)

theorem excise_eq {cur : List Ptr} {v : Nat} (hv : v < cur.length) (hn : cur.Nodup) :
    excise cur v = some (cur.filter (fun x => decide (cur[v]? ≠ some x))) := by
  unfold excise
  rw [if_pos hv, ← List.eraseIdx_eq_take_drop_succ, ← hn.erase_getElem v hv,
    hn.erase_eq_filter]
  congr 1
  apply List.filter_congr
  intro x _
  rw [List.getElem?_eq_getElem hv]
  by_cases hx : x = cur[v]
  · simp [hx]
  · have hx' : cur[v] ≠ x := fun h => hx h.symm
    simp [hx, hx']

theorem exciseAll_eq (idxs : List Nat) :
    ∀ cur : List Ptr, cur.Nodup → idxs.Sorted (· > ·) → (∀ i ∈ idxs, i < cur.length) →
      exciseAll cur idxs
        = some (cur.filter (fun x => decide (∀ i ∈ idxs, cur[i]? ≠ some x))) := by
  induction idxs with
  | nil => intro cur _ _ _; simp [exciseAll]
  | cons v rest ih =>
    intro cur hn hs hlt
    have hv : v < cur.length := hlt v (List.mem_cons_self _ _)
    have hrest : ∀ i ∈ rest, i < v := fun i hi => (List.sorted_cons.1 hs).1 i hi
    have hstep := excise_eq hv hn
    have hlen : (cur.eraseIdx v).length = cur.length - 1 := List.length_eraseIdx_of_lt hv
    have hfil : cur.filter (fun x => decide (cur[v]? ≠ some x)) = cur.eraseIdx v := by
      have := excise_eq hv hn
      unfold excise at this
      rw [if_pos hv, ← List.eraseIdx_eq_take_drop_succ] at this
      exact (Option.some.inj this).symm
    have ih' := ih (cur.eraseIdx v) (hn.eraseIdx v) (List.sorted_cons.1 hs).2
      (fun i hi => by have := hrest i hi; omega)
    unfold exciseAll at ih' ⊢
    rw [List.foldlM_cons, hstep, hfil]
    simp only [Option.bind_eq_bind, Option.some_bind]
    rw [ih', ← hfil, List.filter_filter]
    congr 1
    apply List.filter_congr
    intro x _
    have hget : ∀ i ∈ rest, (cur.eraseIdx v)[i]? = cur[i]? := fun i hi =>
      List.getElem?_eraseIdx_of_lt cur v i (hrest i hi)
    rw [hfil]
    simp only [List.mem_cons, forall_eq_or_imp, Bool.decide_and, Bool.and_comm]
    congr 1
    · congr 1
      apply propext
      constructor
      · intro h i hi; rw [← hget i hi]; exact h i hi
      · intro h i hi; rw [hget i hi]; exact h i hi

theorem removalPass_filter (planets toRemove : List Ptr)
    (hP : planets.Nodup) (hT : toRemove.Nodup) :
    removalPass planets toRemove = some (planets.filter (fun p => decide (p ∉ toRemove))) := by
  unfold removalPass
  have hperm : List.Perm (sortReverse (collectIndices planets toRemove))
      (collectIndices planets toRemove) :=
    List.perm_insertionSort _ _
  have hsorted : (sortReverse (collectIndices planets toRemove)).Sorted (· > ·) :=
    (List.sorted_insertionSort (· ≥ ·) _).gt_of_ge
      (hperm.nodup_iff.2 (nodup_collectIndices planets toRemove hT))
  have hmem : ∀ i, i ∈ sortReverse (collectIndices planets toRemove)
      ↔ ∃ p ∈ toRemove, planets[i]? = some p :=
    fun i => (hperm.mem_iff).trans mem_collectIndices
  rw [exciseAll_eq _ planets hP hsorted]
  · congr 1
    apply List.filter_congr
    intro x hx
    congr 1
    apply propext
    constructor
    · intro h hxT
      obtain ⟨i, hi, hix⟩ := List.getElem_of_mem hx
      have hix' : planets[i]? = some x := by rw [List.getElem?_eq_getElem hi, hix]
      exact h i ((hmem i).2 ⟨x, hxT, hix'⟩) hix'
    · intro hxT i hi hix
      obtain ⟨p, hp, hip⟩ := (hmem i).1 hi
      rw [hip] at hix
      exact hxT (Option.some.inj hix ▸ hp)
  · intro i hi
    obtain ⟨p, _, hip⟩ := (hmem i).1 hi
    by_contra hge
    rw [List.getElem?_eq_none (by omega)] at hip
    exact absurd hip (by simp)

/-- C2. Removal keeps the survivors in order: for a population of pairwise-distinct bodies and
a removal list without repetitions, the removal pass (collect the indices, sort them descending,
excise one by one) does not panic and returns exactly the population with the marked bodies
filtered out, so the survivors keep their order and none is skipped or duplicated. -/
theorem removalPass_eq_filter (planets toRemove : List Ptr)
    (hP : planets.Nodup) (hT : toRemove.Nodup) :
    removalPass planets toRemove = some (planets.filter (fun p => decide (p ∉ toRemove))) :=
  removalPass_filter planets toRemove hP hT

/-- C2, at a concrete population: the second and the fourth of four bodies are removed. -/
theorem removalPass_eq_filter_witness :
    ([10, 11, 12, 13] : List Ptr).Nodup ∧ ([13, 11] : List Ptr).Nodup ∧
      removalPass [10, 11, 12, 13] [13, 11] = some [10, 12] :=
  ⟨by decide, by decide,
    removalPass_eq_filter [10, 11, 12, 13] [13, 11] (by decide) (by decide)⟩

/-! ### The resolver -/

section Resolver

variable {R : Type} [LinearOrderedField R]

theorem absorb_spec (sqrt : R → R) (pi : R) (s : ResolverState R) (a b : Ptr) :
    ((absorb sqrt pi s a b).toRemove = s.toRemove
        ∨ (absorb sqrt pi s a b).toRemove = s.toRemove ++ [b])
      ∧ ∃ later, (absorb sqrt pi s a b).calls = s.calls ++ later
          ∧ ∀ c ∈ later, c.receiver = a ∧ c.argument = b := by
  unfold absorb
  by_cases h1 : (s.heap b).Area pi < 1 / 10
  · rw [if_pos h1]
    exact ⟨Or.inr rfl, _, rfl, by simp [Call.receiver, Call.argument]⟩
  · rw [if_neg h1]
    dsimp only
    by_cases h2 : (AddPartialyl sqrt s.heap a b).2 = some Err.TooSmall
    · rw [if_pos h2]
      exact ⟨Or.inr rfl, _, rfl, by simp [Call.receiver, Call.argument]⟩
    · rw [if_neg h2]
      exact ⟨Or.inl rfl, _, rfl, by simp [Call.receiver, Call.argument]⟩

theorem resolvePair_spec (sqrt : R → R) (pi : R) (s : ResolverState R) (icp : Ptr × Ptr) :
    (s.toRemove.Nodup → (resolvePair sqrt pi s icp).toRemove.Nodup)
      ∧ s.toRemove <+: (resolvePair sqrt pi s icp).toRemove
      ∧ ∃ later, (resolvePair sqrt pi s icp).calls = s.calls ++ later
          ∧ ∀ c ∈ later, ∀ q ∈ s.toRemove, c.receiver ≠ q ∧ c.argument ≠ q := by
  have key : ∀ a b : Ptr, a ∉ s.toRemove → b ∉ s.toRemove →
      (s.toRemove.Nodup → (absorb sqrt pi s a b).toRemove.Nodup)
        ∧ s.toRemove <+: (absorb sqrt pi s a b).toRemove
        ∧ ∃ later, (absorb sqrt pi s a b).calls = s.calls ++ later
            ∧ ∀ c ∈ later, ∀ q ∈ s.toRemove, c.receiver ≠ q ∧ c.argument ≠ q := by
    intro a b ha hb
    obtain ⟨hrem, later, hcalls, hlater⟩ := absorb_spec sqrt pi s a b
    refine ⟨?_, ?_, later, hcalls, ?_⟩
    · intro hn
      rcases hrem with h | h
      · rw [h]; exact hn
      · rw [h]
        exact List.nodup_append.2 ⟨hn, List.nodup_singleton b, by simpa using hb⟩
    · rcases hrem with h | h
      · rw [h]
      · rw [h]; exact List.prefix_append _ _
    · intro c hc q hq
      obtain ⟨h1, h2⟩ := hlater c hc
      constructor
      · rw [h1]; intro hEq; exact ha (hEq ▸ hq)
      · rw [h2]; intro hEq; exact hb (hEq ▸ hq)
  unfold resolvePair
  dsimp only
  by_cases hskip : (s.toRemove.any (fun ptr => decide (icp.1 = ptr ∨ icp.2 = ptr))) = true
  · rw [if_pos hskip]
    exact ⟨id, List.prefix_refl _, [], by simp, by simp⟩
  · rw [if_neg hskip]
    have hnot : icp.1 ∉ s.toRemove ∧ icp.2 ∉ s.toRemove := by
      constructor
      · intro hmem
        exact hskip (List.any_eq_true.2 ⟨icp.1, hmem, by simp⟩)
      · intro hmem
        exact hskip (List.any_eq_true.2 ⟨icp.2, hmem, by simp⟩)
    split_ifs
    · exact key _ _ hnot.1 hnot.2
    · exact key _ _ hnot.2 hnot.1

theorem resolve_spec (sqrt : R → R) (pi : R) (cs : List (Ptr × Ptr)) :
    ∀ s : ResolverState R,
      (s.toRemove.Nodup → (resolve sqrt pi s cs).toRemove.Nodup)
        ∧ s.toRemove <+: (resolve sqrt pi s cs).toRemove
        ∧ ∃ later, (resolve sqrt pi s cs).calls = s.calls ++ later
            ∧ ∀ c ∈ later, ∀ q ∈ s.toRemove, c.receiver ≠ q ∧ c.argument ≠ q := by
  induction cs with
  | nil =>
    intro s
    exact ⟨id, List.prefix_refl _, [], by simp [resolve], by simp⟩
  | cons icp cs ih =>
    intro s
    obtain ⟨hn1, hp1, l1, hc1, hl1⟩ := resolvePair_spec sqrt pi s icp
    obtain ⟨hn2, hp2, l2, hc2, hl2⟩ := ih (resolvePair sqrt pi s icp)
    have hstep : resolve sqrt pi s (icp :: cs) = resolve sqrt pi (resolvePair sqrt pi s icp) cs :=
      rfl
    rw [hstep]
    refine ⟨fun hn => hn2 (hn1 hn), hp1.trans hp2, l1 ++ l2, ?_, ?_⟩
    · rw [hc2, hc1, List.append_assoc]
    · intro c hc q hq
      rcases List.mem_append.1 hc with h | h
      · exact hl1 c h q hq
      · exact hl2 c h q (hp1.subset hq)

theorem resolve_append (sqrt : R → R) (pi : R) (s : ResolverState R)
    (pre post : List (Ptr × Ptr)) :
    resolve sqrt pi s (pre ++ post) = resolve sqrt pi (resolve sqrt pi s pre) post := by
  simp [resolve, List.foldl_append]

/-- C3. No body is consumed twice in one tick. Run the resolver from an empty removal list over
a collision list `pre ++ post`. Then the removal list has no repetition (each body is appended at
most once), the removal list reached after `pre` is a prefix of the final one (entries are only
appended), and no method call made while `post` is processed has a body that was on the removal
list after `pre` as its receiver (absorber) or as its argument (merged or partially absorbed
body). -/
theorem resolve_consumes_once (sqrt : R → R) (pi : R) (h : Heap R)
    (pre post : List (Ptr × Ptr)) :
    (resolve sqrt pi ⟨h, [], []⟩ (pre ++ post)).toRemove.Nodup
      ∧ (resolve sqrt pi ⟨h, [], []⟩ pre).toRemove
          <+: (resolve sqrt pi ⟨h, [], []⟩ (pre ++ post)).toRemove
      ∧ ∃ later,
          (resolve sqrt pi ⟨h, [], []⟩ (pre ++ post)).calls
              = (resolve sqrt pi ⟨h, [], []⟩ pre).calls ++ later
            ∧ ∀ c ∈ later, ∀ q ∈ (resolve sqrt pi ⟨h, [], []⟩ pre).toRemove,
                c.receiver ≠ q ∧ c.argument ≠ q := by
  refine ⟨(resolve_spec sqrt pi (pre ++ post) ⟨h, [], []⟩).1 List.nodup_nil, ?_, ?_⟩
  · rw [resolve_append]
    exact (resolve_spec sqrt pi post _).2.1
  · rw [resolve_append]
    exact (resolve_spec sqrt pi post _).2.2

end Resolver

/-! ### The detector -/

section Detector

variable {R : Type} [LinearOrderedField R]

theorem ite_neg_eq_abs (x : R) : (if x < 0 then -x else x) = |x| := by
  split_ifs with hx
  · exact (abs_of_neg hx).symm
  · exact (abs_of_nonneg (not_lt.1 hx)).symm

theorem detectPair_acc (sqrt : R → R) (h : Heap R) (p1 p2 : Ptr) (acc : List (Ptr × Ptr)) :
    detectPair sqrt h p1 p2 acc = acc ++ detectPair sqrt h p1 p2 [] := by
  unfold detectPair
  dsimp only
  split_ifs <;> simp

theorem detectPair_nil_cases (sqrt : R → R) (h : Heap R) (p1 p2 : Ptr) :
    detectPair sqrt h p1 p2 [] = []
      ∨ (p1 ≠ p2 ∧ detectPair sqrt h p1 p2 [] = [(p1, p2)]) := by
  unfold detectPair
  dsimp only
  split_ifs with h1 h2 h3
  · exact Or.inl rfl
  · exact Or.inl rfl
  · exact Or.inr ⟨h1, rfl⟩
  · exact Or.inl rfl

theorem detect_inner_eq (sqrt : R → R) (h : Heap R) (p1 : Ptr) (l : List Ptr)
    (acc : List (Ptr × Ptr)) :
    l.foldl (fun inCollision p2 => detectPair sqrt h p1 p2 inCollision) acc
      = acc ++ l.flatMap (fun p2 => detectPair sqrt h p1 p2 []) := by
  induction l generalizing acc with
  | nil => simp
  | cons a l ih =>
    rw [List.foldl_cons, ih, detectPair_acc, List.flatMap_cons, List.append_assoc]

theorem detect_outer_eq (sqrt : R → R) (h : Heap R) (planets l : List Ptr)
    (acc : List (Ptr × Ptr)) :
    l.foldl
        (fun inCollision p1 =>
          planets.foldl (fun inCollision p2 => detectPair sqrt h p1 p2 inCollision) inCollision)
        acc
      = acc ++ l.flatMap (fun p1 => planets.flatMap (fun p2 => detectPair sqrt h p1 p2 [])) := by
  induction l generalizing acc with
  | nil => simp
  | cons a l ih =>
    rw [List.foldl_cons, ih, detect_inner_eq, List.flatMap_cons, List.append_assoc]

theorem detect_eq (sqrt : R → R) (h : Heap R) (planets : List Ptr) :
    detect sqrt h planets
      = planets.flatMap (fun p1 => planets.flatMap (fun p2 => detectPair sqrt h p1 p2 [])) := by
  unfold detect
  rw [detect_outer_eq, List.nil_append]

theorem mem_detectPair_nil (sqrt : R → R) (h : Heap R) (p1 p2 : Ptr) (ab : Ptr × Ptr) :
    ab ∈ detectPair sqrt h p1 p2 []
      ↔ ab = (p1, p2) ∧ detectPair sqrt h p1 p2 [] = [(p1, p2)] := by
  rcases detectPair_nil_cases sqrt h p1 p2 with h0 | ⟨_, h1⟩
  · rw [h0]; simp
  · rw [h1]; simp

theorem mem_detect (sqrt : R → R) (h : Heap R) (planets : List Ptr) (a b : Ptr) :
    (a, b) ∈ detect sqrt h planets
      ↔ a ∈ planets ∧ b ∈ planets ∧ detectPair sqrt h a b [] = [(a, b)] := by
  rw [detect_eq]
  simp only [List.mem_flatMap, mem_detectPair_nil, Prod.mk.injEq]
  constructor
  · rintro ⟨p1, hp1, p2, hp2, ⟨rfl, rfl⟩, hd⟩
    exact ⟨hp1, hp2, hd⟩
  · rintro ⟨ha, hb, hd⟩
    exact ⟨a, ha, b, hb, ⟨rfl, rfl⟩, hd⟩

theorem nodup_detect (sqrt : R → R) (h : Heap R) (planets : List Ptr) (hP : planets.Nodup) :
    (detect sqrt h planets).Nodup := by
  rw [detect_eq, List.nodup_flatMap]
  constructor
  · intro p1 _
    rw [List.nodup_flatMap]
    constructor
    · intro p2 _
      rcases detectPair_nil_cases sqrt h p1 p2 with h0 | ⟨_, h1⟩
      · rw [h0]; exact List.nodup_nil
      · rw [h1]; exact List.nodup_singleton _
    · refine hP.imp ?_
      intro x y hxy
      simp only [Function.onFun]
      rw [List.disjoint_left]
      intro ab hx hy
      rw [mem_detectPair_nil] at hx hy
      have := hx.1.symm.trans hy.1
      exact hxy (Prod.mk.inj this).2
  · refine hP.imp ?_
    intro x y hxy
    simp only [Function.onFun]
    rw [List.disjoint_left]
    intro ab hx hy
    simp only [List.mem_flatMap, mem_detectPair_nil] at hx hy
    obtain ⟨_, _, hx1, _⟩ := hx
    obtain ⟨_, _, hy1, _⟩ := hy
    have := hx1.symm.trans hy1
    exact hxy (Prod.mk.inj this).1

end Detector

theorem count_eq_one_of_nodup_of_mem {α : Type} [BEq α] [LawfulBEq α] {a : α} :
    ∀ {l : List α}, l.Nodup → a ∈ l → l.count a = 1 := by
  intro l
  induction l with
  | nil => intro _ hm; simp at hm
  | cons x l ih =>
    intro hn hm
    obtain ⟨hx, hl⟩ := List.nodup_cons.1 hn
    rw [List.count_cons]
    by_cases hax : a = x
    · subst hax
      simp [List.count_eq_zero_of_not_mem hx]
    · have hal : a ∈ l := by
        rcases List.mem_cons.1 hm with h | h
        · exact absurd h hax
        · exact h
      have hxa : (x == a) = false := by
        simpa using fun h : x = a => hax h.symm
      simp [ih hl hal, hxa]

theorem Distance_eq (p p2 : Planet ℝ) :
    p.Distance Real.sqrt p2
      = Real.sqrt ((p.Pos.X - p2.Pos.X) ^ 2 + (p.Pos.Y - p2.Pos.Y) ^ 2) := by
  unfold Planet.Distance
  simp only [ite_neg_eq_abs, sq_abs]

theorem Distance_nonneg (p p2 : Planet ℝ) : 0 ≤ p.Distance Real.sqrt p2 := by
  rw [Distance_eq]; exact Real.sqrt_nonneg _

theorem Distance_comm (p p2 : Planet ℝ) :
    p.Distance Real.sqrt p2 = p2.Distance Real.sqrt p := by
  rw [Distance_eq, Distance_eq]
  congr 1
  ring

theorem abs_dx_le_Distance (p p2 : Planet ℝ) :
    |p.Pos.X - p2.Pos.X| ≤ p.Distance Real.sqrt p2 := by
  rw [Distance_eq]
  exact Real.abs_le_sqrt (le_add_of_nonneg_right (sq_nonneg _))

theorem abs_dy_le_Distance (p p2 : Planet ℝ) :
    |p.Pos.Y - p2.Pos.Y| ≤ p.Distance Real.sqrt p2 := by
  rw [Distance_eq]
  exact Real.abs_le_sqrt (le_add_of_nonneg_left (sq_nonneg _))

/-- A pair that the bounding-box test rejects is farther apart than the sum of the radii. -/
theorem box_reject_imp_far (p p2 : Planet ℝ)
    (hbox : p.Pos.X + p.Radius < p2.Pos.X - p2.Radius ∨ p.Pos.X - p.Radius > p2.Pos.X + p2.Radius
      ∨ p.Pos.Y + p.Radius < p2.Pos.Y - p2.Radius ∨ p.Pos.Y - p.Radius > p2.Pos.Y + p2.Radius) :
    p.Radius + p2.Radius < p.Distance Real.sqrt p2 := by
  have hx := abs_dx_le_Distance p p2
  have hy := abs_dy_le_Distance p p2
  have hx1 := neg_abs_le (p.Pos.X - p2.Pos.X)
  have hx2 := le_abs_self (p.Pos.X - p2.Pos.X)
  have hy1 := neg_abs_le (p.Pos.Y - p2.Pos.Y)
  have hy2 := le_abs_self (p.Pos.Y - p2.Pos.Y)
  rcases hbox with h | h | h | h <;> linarith

theorem detectPair_real (h : Heap ℝ) (a b : Ptr) (hab : a ≠ b) :
    detectPair Real.sqrt h a b [] = [(a, b)]
      ↔ (h a).Distance Real.sqrt (h b) ≤ (h a).Radius + (h b).Radius := by
  unfold detectPair
  dsimp only
  rw [if_neg hab]
  split_ifs with h2 h3
  · have := box_reject_imp_far (h a) (h b) h2
    constructor
    · intro hc; simp at hc
    · intro hc; linarith
  · simp [h3]
  · simp [h3]

/-- C5, as stated, fails: for two overlapping bodies the collision list holds the pair in both
orientations. -/
theorem detect_reports_both_orientations :
    detect Real.sqrt (fun _ => NewPlanet (0 : ℝ) 0 1) [0, 1] = [(0, 1), (1, 0)] := by
  have hd : (NewPlanet (0 : ℝ) 0 1).Distance Real.sqrt (NewPlanet (0 : ℝ) 0 1) = 0 := by
    rw [Distance_eq]; simp
  have hov : (NewPlanet (0 : ℝ) 0 1).Distance Real.sqrt (NewPlanet (0 : ℝ) 0 1)
      ≤ (NewPlanet (0 : ℝ) 0 1).Radius + (NewPlanet (0 : ℝ) 0 1).Radius := by
    rw [hd]; norm_num [NewPlanet]
  have h01 := (detectPair_real (fun _ => NewPlanet (0 : ℝ) 0 1) 0 1 (by decide)).2 hov
  have h10 := (detectPair_real (fun _ => NewPlanet (0 : ℝ) 0 1) 1 0 (by decide)).2 hov
  have h00 : ∀ a : Ptr, detectPair Real.sqrt (fun _ => NewPlanet (0 : ℝ) 0 1) a a [] = [] := by
    intro a; simp [detectPair]
  rw [detect_eq]
  simp [h01, h10, h00]

/-! ### Motion and wraparound -/

theorem Mod_small_neg (x y : ℝ) (hx : x < 0) (hy : 0 < y) (hxy : -y < x) : Mod x y = x := by
  have hq : x / y < 0 := div_neg_of_neg_of_pos hx hy
  have hq1 : -1 < x / y := by
    rw [lt_div_iff₀ hy]; linarith
  have hceil : Int.ceil (x / y) = 0 := by
    rw [Int.ceil_eq_iff]
    constructor
    · simpa using hq1
    · simpa using hq.le
  unfold Mod
  rw [if_neg (not_le.2 hq), hceil]
  simp

/-- C6, the failing input. A body at the origin with velocity `(-10, -10)`, time scale `0.01`
(the default), on the `1920 × 1080` plane: one motion step puts it at `(1920.1, 1080.1)`, outside
the plane. The branch for a negative remainder computes `width - newX` where the wrap needs
`width + newX`. -/
theorem moveBody_leaves_plane :
    (moveBody (1 / 100 : ℝ) 1920 1080 ⟨⟨0, 0⟩, ⟨-10, -10⟩, 0, 3⟩).Pos.X = 1920 + 1 / 10
      ∧ (moveBody (1 / 100 : ℝ) 1920 1080 ⟨⟨0, 0⟩, ⟨-10, -10⟩, 0, 3⟩).Pos.Y = 1080 + 1 / 10
      ∧ ¬ ((moveBody (1 / 100 : ℝ) 1920 1080 ⟨⟨0, 0⟩, ⟨-10, -10⟩, 0, 3⟩).Pos.X < 1920)
      ∧ ¬ ((moveBody (1 / 100 : ℝ) 1920 1080 ⟨⟨0, 0⟩, ⟨-10, -10⟩, 0, 3⟩).Pos.Y < 1080) := by
  have hX : Mod ((0 : ℝ) + -10 * (1 / 100)) ((1920 : Int) : ℝ) = -(1 / 10) := by
    rw [Mod_small_neg _ _ (by norm_num) (by norm_num) (by norm_num)]; norm_num
  have hY : Mod ((0 : ℝ) + -10 * (1 / 100)) ((1080 : Int) : ℝ) = -(1 / 10) := by
    rw [Mod_small_neg _ _ (by norm_num) (by norm_num) (by norm_num)]; norm_num
  simp only [moveBody, hX, hY]
  norm_num

/-! ### Partial absorption -/

theorem transfer_bounds (d r1 r2 o g : ℝ) (hd : 0 ≤ d) (hr1 : 0 ≤ r1)
    (ho : o = r1 + r2 - d) (ho0 : 0 ≤ o) (hor : o ≤ r2) (hg : g = o * o / 2 - r2 * o) :
    g ≤ 0 ∧ 0 ≤ d ^ 2 - 4 * g
      ∧ 0 ≤ (-d + Real.sqrt (d ^ 2 - 4 * g)) / 2
      ∧ (-d + Real.sqrt (d ^ 2 - 4 * g)) / 2 ≤ o
      ∧ (-d - Real.sqrt (d ^ 2 - 4 * g)) / 2 ≤ 0
      ∧ (0 < o → 0 < (-d + Real.sqrt (d ^ 2 - 4 * g)) / 2
                ∧ (-d + Real.sqrt (d ^ 2 - 4 * g)) / 2 < o)
      ∧ ((-d + Real.sqrt (d ^ 2 - 4 * g)) / 2) ^ 2 + d * ((-d + Real.sqrt (d ^ 2 - 4 * g)) / 2)
          + g = 0 := by
  have hg0 : g ≤ 0 := by rw [hg]; nlinarith
  have hD : 0 ≤ d ^ 2 - 4 * g := by nlinarith [sq_nonneg d]
  have hs0 : 0 ≤ Real.sqrt (d ^ 2 - 4 * g) := Real.sqrt_nonneg _
  have hss : Real.sqrt (d ^ 2 - 4 * g) ^ 2 = d ^ 2 - 4 * g := Real.sq_sqrt hD
  have hsd : d ≤ Real.sqrt (d ^ 2 - 4 * g) := by
    apply Real.le_sqrt_of_sq_le; linarith
  have hup : Real.sqrt (d ^ 2 - 4 * g) ≤ 2 * o + d := by
    rw [Real.sqrt_le_left (by linarith)]
    rw [hg]; nlinarith
  refine ⟨hg0, hD, by linarith, by linarith, by linarith, ?_, ?_⟩
  · intro hpos
    have hgneg : g < 0 := by rw [hg]; nlinarith
    constructor
    · have : d < Real.sqrt (d ^ 2 - 4 * g) := by
        rw [Real.lt_sqrt hd]; linarith
      linarith
    · have : Real.sqrt (d ^ 2 - 4 * g) < 2 * o + d := by
        rw [Real.sqrt_lt' (by linarith)]
        rw [hg]; nlinarith
      linarith
  · nlinarith

section PartialUnfold

variable {R : Type} [LinearOrderedField R]

/-- The function `AddPartialyl` in terms of the values of its variables `overlap` and `x`. -/
theorem AddPartialyl_eq (sqrt : R → R) (h : Heap R) (p p2 : Ptr) :
    AddPartialyl sqrt h p p2
      = if (h p2).Radius < overlapOf sqrt h p p2 then (h, some Err.TooSmall)
        else
          (Function.update
            (Function.update h p { h p with Radius := (h p).Radius + transferOf sqrt h p p2 })
            p2
            { (Function.update h p
                { h p with Radius := (h p).Radius + transferOf sqrt h p p2 }) p2 with
              Radius :=
                ((Function.update h p
                  { h p with Radius := (h p).Radius + transferOf sqrt h p p2 }) p2).Radius
                  + (transferOf sqrt h p p2 - overlapOf sqrt h p p2) },
            none) :=
  rfl

end PartialUnfold

theorem overlapOf_eq_abs (h : Heap ℝ) (p p2 : Ptr) :
    overlapOf Real.sqrt h p p2
      = |(h p).Radius + (h p2).Radius - (h p).Distance Real.sqrt (h p2)| := by
  unfold overlapOf
  simp only [ite_neg_eq_abs, abs_of_nonneg (Distance_nonneg _ _)]

theorem AddPartialyl_err_spec (h : Heap ℝ) (p p2 : Ptr) :
    ((AddPartialyl Real.sqrt h p p2).2 = some Err.TooSmall
        ↔ (h p2).Radius < |(h p).Radius + (h p2).Radius - (h p).Distance Real.sqrt (h p2)|)
      ∧ ((AddPartialyl Real.sqrt h p p2).2 = some Err.TooSmall
          → (AddPartialyl Real.sqrt h p p2).1 = h) := by
  rw [AddPartialyl_eq, ← overlapOf_eq_abs]
  by_cases hc : (h p2).Radius < overlapOf Real.sqrt h p p2
  · rw [if_pos hc]
    exact ⟨⟨fun _ => hc, fun _ => rfl⟩, fun _ => rfl⟩
  · rw [if_neg hc]
    exact ⟨⟨fun hh => by simp at hh, fun hh => absurd hh hc⟩, fun hh => by simp at hh⟩

/-- C7. `AddPartialyl` signals `TooSmall` exactly when the other body is smaller than the
overlap `|p.Radius + p2.Radius - Distance(p, p2)|`, and then it changes nothing: the heap after
the call is the heap before it, so every field of `p` and of `p2` is as before. -/
theorem AddPartialyl_TooSmall_iff (h : Heap ℝ) (p p2 : Ptr) :
    ((AddPartialyl Real.sqrt h p p2).2 = some Err.TooSmall
        ↔ (h p2).Radius < |(h p).Radius + (h p2).Radius - (h p).Distance Real.sqrt (h p2)|)
      ∧ ((AddPartialyl Real.sqrt h p p2).2 = some Err.TooSmall
          → (AddPartialyl Real.sqrt h p p2).1 = h) :=
  AddPartialyl_err_spec h p p2

theorem AddPartialyl_step (h : Heap ℝ) (p p2 : Ptr) (hr1 : 0 ≤ (h p).Radius)
    (ho0 : 0 ≤ (h p).Radius + (h p2).Radius - (h p).Distance Real.sqrt (h p2))
    (hor : (h p).Radius + (h p2).Radius - (h p).Distance Real.sqrt (h p2) ≤ (h p2).Radius) :
    (AddPartialyl Real.sqrt h p p2).2 = none
      ∧ ∃ x : ℝ, 0 ≤ x
        ∧ x ≤ (h p).Radius + (h p2).Radius - (h p).Distance Real.sqrt (h p2)
        ∧ (0 < (h p).Radius + (h p2).Radius - (h p).Distance Real.sqrt (h p2)
            → 0 < x ∧ x < (h p).Radius + (h p2).Radius - (h p).Distance Real.sqrt (h p2))
        ∧ x * (x + (h p).Distance Real.sqrt (h p2))
            = (h p2).Radius * ((h p).Radius + (h p2).Radius - (h p).Distance Real.sqrt (h p2))
              - ((h p).Radius + (h p2).Radius - (h p).Distance Real.sqrt (h p2)) ^ 2 / 2
        ∧ ((AddPartialyl Real.sqrt h p p2).1 p).Radius = (h p).Radius + x
        ∧ ((AddPartialyl Real.sqrt h p p2).1 p2).Radius
            = (h p2).Radius
              + (x - ((h p).Radius + (h p2).Radius - (h p).Distance Real.sqrt (h p2)))
        ∧ ∀ q, ((AddPartialyl Real.sqrt h p p2).1 q).Pos = (h q).Pos := by
  have hd := Distance_nonneg (h p) (h p2)
  have hov : overlapOf Real.sqrt h p p2
      = (h p).Radius + (h p2).Radius - (h p).Distance Real.sqrt (h p2) := by
    rw [overlapOf_eq_abs, abs_of_nonneg ho0]
  obtain ⟨_, _, hx0, hxo, hx2, hxs, hroot⟩ :=
    transfer_bounds ((h p).Distance Real.sqrt (h p2)) (h p).Radius (h p2).Radius _ _ hd hr1 rfl
      ho0 hor rfl
  have hsel : ∀ a b : ℝ, 0 ≤ a → b ≤ 0 → (if a > 0 then a else if b > 0 then b else 0) = a := by
    intro a b ha hb
    split_ifs with h1 h2
    · rfl
    · linarith
    · linarith [not_lt.1 h1]
  have hT : transferOf Real.sqrt h p p2
      = (-(h p).Distance Real.sqrt (h p2)
          + Real.sqrt ((h p).Distance Real.sqrt (h p2) ^ 2
              - 4 * (((h p).Radius + (h p2).Radius - (h p).Distance Real.sqrt (h p2))
                      * ((h p).Radius + (h p2).Radius - (h p).Distance Real.sqrt (h p2)) / 2
                    - (h p2).Radius
                      * ((h p).Radius + (h p2).Radius - (h p).Distance Real.sqrt (h p2)))))
          / 2 := by
    unfold transferOf
    simp only [ite_neg_eq_abs, abs_of_nonneg hd, hov]
    exact hsel _ _ hx0 hx2
  rw [← hT] at hx0 hxo hxs hroot
  rw [AddPartialyl_eq, hov, if_neg (not_lt.2 hor)]
  generalize transferOf Real.sqrt h p p2 = x at hx0 hxo hxs hroot
  have hal : p = p2 → (h p).Radius = 0 ∧ x = 0
      ∧ (h p).Radius + (h p2).Radius - (h p).Distance Real.sqrt (h p2) = 0 := by
    intro hpp
    subst hpp
    have hd0 : (h p).Distance Real.sqrt (h p) = 0 := by rw [Distance_eq]; simp
    rw [hd0] at hor hxo ho0 ⊢
    refine ⟨by linarith, by linarith, by linarith⟩
  refine ⟨rfl, x, hx0, hxo, hxs, by nlinarith [hroot], ?_, ?_, ?_⟩
  · by_cases hpp : p = p2
    · obtain ⟨h1, h2, h3⟩ := hal hpp
      subst hpp
      simp only [Function.update_same]
      rw [h3, h2]; ring
    · simp only [Function.update_noteq hpp, Function.update_same]
  · by_cases hpp : p = p2
    · obtain ⟨h1, h2, h3⟩ := hal hpp
      subst hpp
      simp only [Function.update_same]
      rw [h3, h2]; ring
    · simp only [Function.update_same, Function.update_noteq (Ne.symm hpp)]
  · intro q
    by_cases hq2 : q = p2
    · subst hq2
      simp only [Function.update_same]
      by_cases hq1 : q = p
      · subst hq1; simp only [Function.update_same]
      · simp only [Function.update_noteq hq1]
    · simp only [Function.update_noteq hq2]
      by_cases hq1 : q = p
      · subst hq1; simp only [Function.update_same]
      · simp only [Function.update_noteq hq1]

theorem Distance_congr (a b a' b' : Planet ℝ) (ha : a'.Pos = a.Pos) (hb : b'.Pos = b.Pos) :
    a'.Distance Real.sqrt b' = a.Distance Real.sqrt b := by
  unfold Planet.Distance
  rw [ha, hb]

/-- A successful call from a state with non-negative radii and `d ≤ r1 + r2` keeps both, does
not move the centres, does not shrink the absorber and does not grow the absorbed body. -/
theorem AddPartialyl_inv (h : Heap ℝ) (p p2 : Ptr) (hr1 : 0 ≤ (h p).Radius)
    (hd : (h p).Distance Real.sqrt (h p2) ≤ (h p).Radius + (h p2).Radius)
    (hs : (AddPartialyl Real.sqrt h p p2).2 = none) :
    0 ≤ ((AddPartialyl Real.sqrt h p p2).1 p).Radius
      ∧ 0 ≤ ((AddPartialyl Real.sqrt h p p2).1 p2).Radius
      ∧ ((AddPartialyl Real.sqrt h p p2).1 p).Distance Real.sqrt
            ((AddPartialyl Real.sqrt h p p2).1 p2)
          ≤ ((AddPartialyl Real.sqrt h p p2).1 p).Radius
            + ((AddPartialyl Real.sqrt h p p2).1 p2).Radius
      ∧ ((AddPartialyl Real.sqrt h p p2).1 p2).Radius ≤ (h p2).Radius
      ∧ (h p).Radius ≤ ((AddPartialyl Real.sqrt h p p2).1 p).Radius := by
  have ho0 : 0 ≤ (h p).Radius + (h p2).Radius - (h p).Distance Real.sqrt (h p2) := by linarith
  have hor : (h p).Radius + (h p2).Radius - (h p).Distance Real.sqrt (h p2) ≤ (h p2).Radius := by
    by_contra hc
    have hlt := not_le.1 hc
    rw [← abs_of_nonneg ho0] at hlt
    have := (AddPartialyl_err_spec h p p2).1.2 hlt
    rw [hs] at this
    simp at this
  obtain ⟨_, x, hx0, hxo, _, _, hp, hp2, hpos⟩ := AddPartialyl_step h p p2 hr1 ho0 hor
  rw [Distance_congr _ _ _ _ (hpos p) (hpos p2), hp, hp2]
  refine ⟨by linarith, by linarith, by linarith, by linarith, by linarith⟩

theorem iterAddPartialyl_inv (h : Heap ℝ) (p p2 : Ptr) (hr1 : 0 ≤ (h p).Radius)
    (hr2 : 0 ≤ (h p2).Radius)
    (hd : (h p).Distance Real.sqrt (h p2) ≤ (h p).Radius + (h p2).Radius) (n : Nat)
    (hs : ∀ k, k < n →
      (AddPartialyl Real.sqrt (iterAddPartialyl Real.sqrt h p p2 k) p p2).2 = none) :
    0 ≤ (iterAddPartialyl Real.sqrt h p p2 n p).Radius
      ∧ 0 ≤ (iterAddPartialyl Real.sqrt h p p2 n p2).Radius
      ∧ (iterAddPartialyl Real.sqrt h p p2 n p).Distance Real.sqrt
            (iterAddPartialyl Real.sqrt h p p2 n p2)
          ≤ (iterAddPartialyl Real.sqrt h p p2 n p).Radius
            + (iterAddPartialyl Real.sqrt h p p2 n p2).Radius := by
  induction n with
  | zero => exact ⟨hr1, hr2, hd⟩
  | succ n ih =>
    obtain ⟨i1, i2, i3⟩ := ih (fun k hk => hs k (Nat.lt_succ_of_lt hk))
    obtain ⟨j1, j2, j3, _, _⟩ :=
      AddPartialyl_inv _ p p2 i1 i3 (hs n (Nat.lt_succ_self n))
    exact ⟨j1, j2, j3⟩

/-- C8, amended. Over exact real arithmetic (the roundings of `float32` and `float64` left
out) a successful partial absorption grows the absorber and shrinks the absorbed. For bodies
with non-negative radii, distance `d ≤ p.Radius + p2.Radius` and overlap
`p.Radius + p2.Radius - d` at most `p2.Radius`, the call `p.AddPartialyl(p2)` returns `nil`; if
`d < p.Radius + p2.Radius` then `p.Radius` is strictly larger and `p2.Radius` strictly smaller
after the call; if the overlap is exactly 0 both radii are unchanged; and over successive
successful calls the radius of the shrinking body never increases. -/
theorem AddPartialyl_grows_and_shrinks (h : Heap ℝ) (p p2 : Ptr) (hr1 : 0 ≤ (h p).Radius)
    (hr2 : 0 ≤ (h p2).Radius)
    (hd : (h p).Distance Real.sqrt (h p2) ≤ (h p).Radius + (h p2).Radius)
    (ho : (h p).Radius + (h p2).Radius - (h p).Distance Real.sqrt (h p2) ≤ (h p2).Radius) :
    (AddPartialyl Real.sqrt h p p2).2 = none
      ∧ ((h p).Distance Real.sqrt (h p2) < (h p).Radius + (h p2).Radius
          → (h p).Radius < ((AddPartialyl Real.sqrt h p p2).1 p).Radius
            ∧ ((AddPartialyl Real.sqrt h p p2).1 p2).Radius < (h p2).Radius)
      ∧ ((h p).Distance Real.sqrt (h p2) = (h p).Radius + (h p2).Radius
          → ((AddPartialyl Real.sqrt h p p2).1 p).Radius = (h p).Radius
            ∧ ((AddPartialyl Real.sqrt h p p2).1 p2).Radius = (h p2).Radius)
      ∧ ∀ n : Nat,
          (∀ k, k ≤ n →
            (AddPartialyl Real.sqrt (iterAddPartialyl Real.sqrt h p p2 k) p p2).2 = none)
          → (iterAddPartialyl Real.sqrt h p p2 (n + 1) p2).Radius
              ≤ (iterAddPartialyl Real.sqrt h p p2 n p2).Radius := by
  have ho0 : 0 ≤ (h p).Radius + (h p2).Radius - (h p).Distance Real.sqrt (h p2) := by linarith
  obtain ⟨hnil, x, hx0, hxo, hxs, _, hp, hp2, _⟩ := AddPartialyl_step h p p2 hr1 ho0 ho
  refine ⟨hnil, ?_, ?_, ?_⟩
  · intro hlt
    obtain ⟨h1, h2⟩ := hxs (by linarith)
    rw [hp, hp2]
    exact ⟨by linarith, by linarith⟩
  · intro heq
    rw [hp, hp2]
    have : x = 0 := by linarith
    rw [this, heq]
    exact ⟨by ring, by ring⟩
  · intro n hs
    obtain ⟨i1, i2, i3⟩ :=
      iterAddPartialyl_inv h p p2 hr1 hr2 hd n (fun k hk => hs k (Nat.le_of_lt hk))
    exact (AddPartialyl_inv _ p p2 i1 i3 (hs n (Nat.le_refl n))).2.2.2.1

theorem Distance_on_axis (a b r r' : ℝ) (hab : a ≤ b) :
    (NewPlanet a 0 r).Distance Real.sqrt (NewPlanet b 0 r') = b - a := by
  rw [Distance_eq]
  simp only [NewPlanet, sub_self, ne_eq, OfNat.ofNat_ne_zero, not_false_eq_true, zero_pow,
    add_zero]
  rw [Real.sqrt_sq_eq_abs, abs_of_nonpos (by linarith)]
  ring

/-- C8, at the scenario of the specification: radii 10 and 10, centres 19 apart. The call
succeeds, the absorber ends above 10 and the absorbed body below 10. -/
theorem AddPartialyl_grows_and_shrinks_witness :
    (AddPartialyl Real.sqrt (fun q => if q = 0 then NewPlanet (0 : ℝ) 0 10 else NewPlanet 19 0 10)
        0 1).2 = none
      ∧ (10 : ℝ) < ((AddPartialyl Real.sqrt
          (fun q => if q = 0 then NewPlanet (0 : ℝ) 0 10 else NewPlanet 19 0 10) 0 1).1 0).Radius
      ∧ ((AddPartialyl Real.sqrt
          (fun q => if q = 0 then NewPlanet (0 : ℝ) 0 10 else NewPlanet 19 0 10) 0 1).1 1).Radius
          < (10 : ℝ) := by
  have hd : (NewPlanet (0 : ℝ) 0 10).Distance Real.sqrt (NewPlanet (19 : ℝ) 0 10) = 19 := by
    rw [Distance_on_axis _ _ _ _ (by norm_num)]; norm_num
  have key := AddPartialyl_grows_and_shrinks
    (fun q => if q = 0 then NewPlanet (0 : ℝ) 0 10 else NewPlanet 19 0 10) 0 1
    (by norm_num [NewPlanet]) (by norm_num [NewPlanet])
    (by simp only [if_true, one_ne_zero, if_false]; rw [hd]; norm_num [NewPlanet])
    (by simp only [if_true, one_ne_zero, if_false]; rw [hd]; norm_num [NewPlanet])
  have hlt := key.2.1
    (by simp only [if_true, one_ne_zero, if_false]; rw [hd]; norm_num [NewPlanet])
  exact ⟨key.1, by simpa [NewPlanet] using hlt.1, by simpa [NewPlanet] using hlt.2⟩

/-- The region in which partial absorption goes on for ever: non-negative radii, overlap
`o = r1 + r2 - d ≥ 0`, and either `o = 0` or `2 * o ≤ r2` and `3 * r2 ≤ d`. Every call from it
succeeds and leads back into it. -/
theorem AddPartialyl_stays (h : Heap ℝ) (p p2 : Ptr) (hr1 : 0 ≤ (h p).Radius)
    (hr2 : 0 ≤ (h p2).Radius)
    (ho0 : 0 ≤ (h p).Radius + (h p2).Radius - (h p).Distance Real.sqrt (h p2))
    (hreg : (h p).Radius + (h p2).Radius - (h p).Distance Real.sqrt (h p2) = 0
      ∨ (2 * ((h p).Radius + (h p2).Radius - (h p).Distance Real.sqrt (h p2)) ≤ (h p2).Radius
          ∧ 3 * (h p2).Radius ≤ (h p).Distance Real.sqrt (h p2))) :
    (AddPartialyl Real.sqrt h p p2).2 = none
      ∧ 0 ≤ ((AddPartialyl Real.sqrt h p p2).1 p).Radius
      ∧ 0 ≤ ((AddPartialyl Real.sqrt h p p2).1 p2).Radius
      ∧ 0 ≤ ((AddPartialyl Real.sqrt h p p2).1 p).Radius
            + ((AddPartialyl Real.sqrt h p p2).1 p2).Radius
            - ((AddPartialyl Real.sqrt h p p2).1 p).Distance Real.sqrt
                ((AddPartialyl Real.sqrt h p p2).1 p2)
      ∧ (((AddPartialyl Real.sqrt h p p2).1 p).Radius
            + ((AddPartialyl Real.sqrt h p p2).1 p2).Radius
            - ((AddPartialyl Real.sqrt h p p2).1 p).Distance Real.sqrt
                ((AddPartialyl Real.sqrt h p p2).1 p2) = 0
          ∨ (2 * (((AddPartialyl Real.sqrt h p p2).1 p).Radius
                + ((AddPartialyl Real.sqrt h p p2).1 p2).Radius
                - ((AddPartialyl Real.sqrt h p p2).1 p).Distance Real.sqrt
                    ((AddPartialyl Real.sqrt h p p2).1 p2))
              ≤ ((AddPartialyl Real.sqrt h p p2).1 p2).Radius
            ∧ 3 * ((AddPartialyl Real.sqrt h p p2).1 p2).Radius
              ≤ ((AddPartialyl Real.sqrt h p p2).1 p).Distance Real.sqrt
                  ((AddPartialyl Real.sqrt h p p2).1 p2))) := by
  have hd := Distance_nonneg (h p) (h p2)
  have hor : (h p).Radius + (h p2).Radius - (h p).Distance Real.sqrt (h p2) ≤ (h p2).Radius := by
    rcases hreg with h0 | ⟨h1, _⟩
    · rw [h0]; exact hr2
    · linarith
  obtain ⟨hnil, x, hx0, hxo, _, hroot, hp, hp2, hpos⟩ := AddPartialyl_step h p p2 hr1 ho0 hor
  rw [Distance_congr _ _ _ _ (hpos p) (hpos p2), hp, hp2]
  refine ⟨hnil, by linarith, by linarith, by linarith, ?_⟩
  rcases hreg with h0 | ⟨h1, h2⟩
  · left
    have : x = 0 := by linarith
    rw [this]; linarith
  · right
    have h3x : 3 * x ≤ (h p).Radius + (h p2).Radius - (h p).Distance Real.sqrt (h p2) := by
      by_contra hc
      have hc' := not_le.1 hc
      have hxpos : 0 < x := by linarith
      nlinarith [mul_pos hxpos hxpos, mul_nonneg hd (by linarith : (0 : ℝ) ≤ 3 * x
        - ((h p).Radius + (h p2).Radius - (h p).Distance Real.sqrt (h p2))),
        mul_nonneg ho0 (by linarith : (0 : ℝ) ≤ (h p).Distance Real.sqrt (h p2)
          - 3 * (h p2).Radius),
        sq_nonneg ((h p).Radius + (h p2).Radius - (h p).Distance Real.sqrt (h p2))]
    constructor <;> linarith

theorem iterAddPartialyl_stays (h : Heap ℝ) (p p2 : Ptr) (hr1 : 0 ≤ (h p).Radius)
    (hr2 : 0 ≤ (h p2).Radius)
    (ho0 : 0 ≤ (h p).Radius + (h p2).Radius - (h p).Distance Real.sqrt (h p2))
    (hreg : (h p).Radius + (h p2).Radius - (h p).Distance Real.sqrt (h p2) = 0
      ∨ (2 * ((h p).Radius + (h p2).Radius - (h p).Distance Real.sqrt (h p2)) ≤ (h p2).Radius
          ∧ 3 * (h p2).Radius ≤ (h p).Distance Real.sqrt (h p2))) (n : Nat) :
    (AddPartialyl Real.sqrt (iterAddPartialyl Real.sqrt h p p2 n) p p2).2 = none := by
  have hinv : ∀ n : Nat,
      0 ≤ (iterAddPartialyl Real.sqrt h p p2 n p).Radius
        ∧ 0 ≤ (iterAddPartialyl Real.sqrt h p p2 n p2).Radius
        ∧ 0 ≤ (iterAddPartialyl Real.sqrt h p p2 n p).Radius
              + (iterAddPartialyl Real.sqrt h p p2 n p2).Radius
              - (iterAddPartialyl Real.sqrt h p p2 n p).Distance Real.sqrt
                  (iterAddPartialyl Real.sqrt h p p2 n p2)
        ∧ ((iterAddPartialyl Real.sqrt h p p2 n p).Radius
              + (iterAddPartialyl Real.sqrt h p p2 n p2).Radius
              - (iterAddPartialyl Real.sqrt h p p2 n p).Distance Real.sqrt
                  (iterAddPartialyl Real.sqrt h p p2 n p2) = 0
            ∨ (2 * ((iterAddPartialyl Real.sqrt h p p2 n p).Radius
                  + (iterAddPartialyl Real.sqrt h p p2 n p2).Radius
                  - (iterAddPartialyl Real.sqrt h p p2 n p).Distance Real.sqrt
                      (iterAddPartialyl Real.sqrt h p p2 n p2))
                ≤ (iterAddPartialyl Real.sqrt h p p2 n p2).Radius
              ∧ 3 * (iterAddPartialyl Real.sqrt h p p2 n p2).Radius
                ≤ (iterAddPartialyl Real.sqrt h p p2 n p).Distance Real.sqrt
                    (iterAddPartialyl Real.sqrt h p p2 n p2))) := by
    intro n
    induction n with
    | zero => exact ⟨hr1, hr2, ho0, hreg⟩
    | succ n ih =>
      obtain ⟨i1, i2, i3, i4⟩ := ih
      exact (AddPartialyl_stays _ p p2 i1 i2 i3 i4).2
  obtain ⟨i1, i2, i3, i4⟩ := hinv n
  exact (AddPartialyl_stays _ p p2 i1 i2 i3 i4).1

/-- C9, as stated, fails: two bodies of radius 10 whose centres are 20 apart (so that
`d ≤ r_large + r_small`) never get `TooSmall`, however often `AddPartialyl` is repeated. -/
theorem tangent_never_TooSmall :
    ¬ ∃ n : Nat,
      (AddPartialyl Real.sqrt
        (iterAddPartialyl Real.sqrt
          (fun q => if q = 0 then NewPlanet (0 : ℝ) 0 10 else NewPlanet 20 0 10) 0 1 n) 0 1).2
        = some Err.TooSmall := by
  have hd : (NewPlanet (0 : ℝ) 0 10).Distance Real.sqrt (NewPlanet (20 : ℝ) 0 10) = 20 := by
    rw [Distance_on_axis _ _ _ _ (by norm_num)]; norm_num
  rintro ⟨n, hn⟩
  have key := iterAddPartialyl_stays
    (fun q => if q = 0 then NewPlanet (0 : ℝ) 0 10 else NewPlanet 20 0 10) 0 1
    (by norm_num [NewPlanet]) (by norm_num [NewPlanet])
    (by simp only [if_true, one_ne_zero, if_false]; rw [hd]; norm_num [NewPlanet])
    (by left; simp only [if_true, one_ne_zero, if_false]; rw [hd]; norm_num [NewPlanet]) n
  rw [key] at hn
  simp at hn

/-- C9, amended. Repeated partial absorption need not end in `TooSmall`. For bodies with
non-negative radii and fixed centres whose overlap `o = r_large + r_small - d` is non-negative
and either `0` (tangent bodies) or small (`2 * o ≤ r_small` and `3 * r_small ≤ d`), every call
in the iteration of `larger.AddPartialyl(smaller)` returns `nil`: the run of successful calls is
infinite. -/
theorem AddPartialyl_runs_for_ever (h : Heap ℝ) (p p2 : Ptr) (hr1 : 0 ≤ (h p).Radius)
    (hr2 : 0 ≤ (h p2).Radius)
    (ho0 : 0 ≤ (h p).Radius + (h p2).Radius - (h p).Distance Real.sqrt (h p2))
    (hreg : (h p).Radius + (h p2).Radius - (h p).Distance Real.sqrt (h p2) = 0
      ∨ (2 * ((h p).Radius + (h p2).Radius - (h p).Distance Real.sqrt (h p2)) ≤ (h p2).Radius
          ∧ 3 * (h p2).Radius ≤ (h p).Distance Real.sqrt (h p2))) (n : Nat) :
    (AddPartialyl Real.sqrt (iterAddPartialyl Real.sqrt h p p2 n) p p2).2 = none :=
  iterAddPartialyl_stays h p p2 hr1 hr2 ho0 hreg n

/-- C9 amended, at radii 100 and 10 with centres 109 apart (overlap 1): the sixth call still
returns `nil`. -/
theorem AddPartialyl_runs_for_ever_witness :
    (AddPartialyl Real.sqrt
      (iterAddPartialyl Real.sqrt
        (fun q => if q = 0 then NewPlanet (0 : ℝ) 0 100 else NewPlanet 109 0 10) 0 1 5) 0 1).2
      = none := by
  have hd : (NewPlanet (0 : ℝ) 0 100).Distance Real.sqrt (NewPlanet (109 : ℝ) 0 10) = 109 := by
    rw [Distance_on_axis _ _ _ _ (by norm_num)]; norm_num
  exact AddPartialyl_runs_for_ever
    (fun q => if q = 0 then NewPlanet (0 : ℝ) 0 100 else NewPlanet 109 0 10) 0 1
    (by norm_num [NewPlanet]) (by norm_num [NewPlanet])
    (by simp only [if_true, one_ne_zero, if_false]; rw [hd]; norm_num [NewPlanet])
    (by right; simp only [if_true, one_ne_zero, if_false]; rw [hd]; norm_num [NewPlanet]) 5

/-! ### The generator -/

section GeneratorCount

variable {R : Type} [LinearOrderedField R]

theorem randomPlanetsLoop_length (rnd : RandSource R) (maxx maxy : Int) (hx : maxx ≠ 0)
    (hy : maxy ≠ 0) (n : Nat) :
    ∀ (i : Nat) (planets : List (Planet R)),
      (randomPlanetsLoop rnd maxx maxy n i planets).map List.length
        = some (planets.length + n) := by
  induction n with
  | zero => intro i planets; simp [randomPlanetsLoop]
  | succ n ih =>
    intro i planets
    have hp : ∃ b, randomPlanet rnd maxx maxy i = some b := by
      unfold randomPlanet
      rw [if_neg (by simp [hx, hy])]
      exact ⟨_, rfl⟩
    obtain ⟨b, hb⟩ := hp
    rw [randomPlanetsLoop, hb]
    simp only
    rw [ih]
    simp only [List.length_append, List.length_singleton]
    congr 1
    omega

/-- C10, the failing inputs. With `min = max = K` the generator returns `K + 1` bodies, not `K`,
whatever the random source yields and whatever the positive plane size is: `random` is 0,
`scope` is `K`, and the loop `for i := 0; i <= scope; i++` runs `K + 1` times. -/
theorem GetRandomPlanets_min_eq_max_count (rnd : RandSource R) (K mx my : Nat) :
    (GetRandomPlanets rnd (K : Int) (K : Int) ((mx : Int) + 1) ((my : Int) + 1)).map List.length
      = some (K + 1) := by
  unfold GetRandomPlanets
  simp only [if_true]
  rw [randomPlanetsLoop_length rnd _ _ (by omega) (by omega)]
  simp only [List.length_nil, zero_add, Option.some.injEq]
  omega

end GeneratorCount

/-! ### The time scale -/

section TimeScale

variable {R : Type} [LinearOrderedField R]

theorem wheelUpdate_eq_clamp (s : R) (eY : Int) :
    wheelUpdate s eY = max (1 / 1000) (min 10 (s * (1 + (eY : R) / 10))) := by
  have hv : s + s / 10 * (eY : R) = s * (1 + (eY : R) / 10) := by ring
  unfold wheelUpdate
  simp only [hv]
  split_ifs with h1 h2
  · rw [max_eq_left]
    exact le_trans (min_le_right _ _) h1.le
  · rw [min_eq_left h2.le, max_eq_right (by norm_num)]
  · rw [min_eq_right (not_lt.1 h2), max_eq_right (not_lt.1 h1)]

theorem wheelUpdate_range (s : R) (eY : Int) :
    1 / 1000 ≤ wheelUpdate s eY ∧ wheelUpdate s eY ≤ 10 := by
  rw [wheelUpdate_eq_clamp]
  exact ⟨le_max_left _ _, max_le (by norm_num) (min_le_left _ _)⟩

theorem speedStep_range (s : R) (ev : SpeedEvent) :
    1 / 1000 ≤ speedStep s ev ∧ speedStep s ev ≤ 10 := by
  cases ev with
  | wheel eY => exact wheelUpdate_range s eY
  | reset =>
    have : (simSpeed : R) = 1 / 100 := rfl
    simp only [speedStep, this]
    constructor <;> norm_num

theorem foldl_speedStep_range (events : List SpeedEvent) :
    ∀ s : R, (1 / 1000 ≤ s ∧ s ≤ 10) →
      1 / 1000 ≤ events.foldl speedStep s ∧ events.foldl speedStep s ≤ 10 := by
  induction events with
  | nil => intro s hs; exact hs
  | cons ev events ih =>
    intro s hs
    exact ih _ (speedStep_range s ev)

/-- C11. The time scale stays in range. The wheel-event update turns every time scale `s` (in
particular one of `[0.001, 10]`) into `s * (1 + delta / 10)` clamped to `[0.001, 10]`, for every
integer wheel delta; and starting from the default `0.01`, after any finite sequence of wheel
updates and resets the time scale is at least `0.001` and at most `10`. -/
theorem timeScale_in_range :
    (∀ (s : R) (delta : Int),
        wheelUpdate s delta = max (1 / 1000) (min 10 (s * (1 + (delta : R) / 10))))
      ∧ ∀ events : List SpeedEvent,
          (1 / 1000 : R) ≤ speedAfter events ∧ (speedAfter events : R) ≤ 10 := by
  refine ⟨wheelUpdate_eq_clamp, fun events => ?_⟩
  have h0 : (simSpeed : R) = 1 / 100 := rfl
  exact foldl_speedStep_range events simSpeed (by rw [h0]; constructor <;> norm_num)

end TimeScale

/-! ### Radii and the frame of `Merge` -/

theorem Merge_radius_nonneg (pi : ℝ) (h : Heap ℝ) (p p2 q : Ptr) (hq : 0 ≤ (h q).Radius) :
    0 ≤ ((Merge Real.sqrt pi h p p2) q).Radius := by
  unfold Merge
  by_cases hqp : q = p
  · subst hqp
    simp only [Function.update_same]
    exact Real.sqrt_nonneg _
  · simp only [Function.update_noteq hqp]
    exact hq

section RadiusGeneric

variable {R : Type} [LinearOrderedField R]

theorem transferOf_nonneg (sqrt : R → R) (h : Heap R) (p p2 : Ptr) :
    0 ≤ transferOf sqrt h p p2 := by
  have hsel : ∀ a b : R, 0 ≤ (if a > 0 then a else if b > 0 then b else 0) := by
    intro a b
    split_ifs with h1 h2
    · exact le_of_lt h1
    · exact le_of_lt h2
    · exact le_refl 0
  unfold transferOf
  exact hsel _ _

theorem AddPartialyl_radius_nonneg (sqrt : R → R) (h : Heap R) (p p2 q : Ptr)
    (hp : 0 ≤ (h p).Radius) (hq : 0 ≤ (h q).Radius) :
    0 ≤ ((AddPartialyl sqrt h p p2).1 q).Radius := by
  have hx := transferOf_nonneg sqrt h p p2
  rw [AddPartialyl_eq]
  by_cases hc : (h p2).Radius < overlapOf sqrt h p p2
  · rw [if_pos hc]; exact hq
  · rw [if_neg hc]
    have hor := not_lt.1 hc
    by_cases hq2 : q = p2
    · subst hq2
      simp only [Function.update_same]
      by_cases hqp : q = p
      · subst hqp
        simp only [Function.update_same]
        linarith
      · simp only [Function.update_noteq hqp]
        linarith
    · simp only [Function.update_noteq hq2]
      by_cases hqp : q = p
      · subst hqp
        simp only [Function.update_same]
        linarith
      · simp only [Function.update_noteq hqp]
        exact hq

/-- C13, amended. `Merge` changes only the absorber's radius, mass and velocity. For two
different bodies
`p`, `p2`: after `p.Merge(p2)` the mass of `p` is the old `p.Mass + p2.Mass`, each velocity
component of `p` is `19/20` of its old value, `p.Pos` is unchanged, every field of `p2` is
unchanged, and so is every other body. When the same handle is passed twice the argument is the
receiver and changes with it, which is why the two are taken to be different. -/
theorem Merge_frame (sqrt : R → R) (pi : R) (h : Heap R) (p p2 : Ptr) (hne : p ≠ p2) :
    ((Merge sqrt pi h p p2) p).Mass = (h p).Mass + (h p2).Mass
      ∧ ((Merge sqrt pi h p p2) p).Vector.X = 19 / 20 * (h p).Vector.X
      ∧ ((Merge sqrt pi h p p2) p).Vector.Y = 19 / 20 * (h p).Vector.Y
      ∧ ((Merge sqrt pi h p p2) p).Pos = (h p).Pos
      ∧ (Merge sqrt pi h p p2) p2 = h p2
      ∧ ∀ q, q ≠ p → (Merge sqrt pi h p p2) q = h q := by
  have hne' : p2 ≠ p := fun e => hne e.symm
  unfold Merge
  refine ⟨?_, ?_, ?_, ?_, ?_, ?_⟩
  · simp only [Function.update_same, Function.update_noteq hne']
  · simp only [Function.update_same]; ring
  · simp only [Function.update_same]; ring
  · simp only [Function.update_same]
  · simp only [Function.update_noteq hne']
  · intro q hq
    simp only [Function.update_noteq hq]

end RadiusGeneric

/-- C13, at two bodies with masses 2 and 3: the absorber ends with mass 5 and the absorbed body
keeps its mass. -/
theorem Merge_frame_witness :
    ((Merge Real.sqrt Real.pi
        (fun q => if q = 0 then (⟨⟨0, 0⟩, ⟨20, 40⟩, 2, 1⟩ : Planet ℝ) else ⟨⟨1, 0⟩, ⟨0, 0⟩, 3, 1⟩)
        0 1) 0).Mass = 2 + 3
      ∧ ((Merge Real.sqrt Real.pi
        (fun q => if q = 0 then (⟨⟨0, 0⟩, ⟨20, 40⟩, 2, 1⟩ : Planet ℝ) else ⟨⟨1, 0⟩, ⟨0, 0⟩, 3, 1⟩)
        0 1) 1).Mass = 3 := by
  have key := Merge_frame Real.sqrt Real.pi
    (fun q => if q = 0 then (⟨⟨0, 0⟩, ⟨20, 40⟩, 2, 1⟩ : Planet ℝ) else ⟨⟨1, 0⟩, ⟨0, 0⟩, 3, 1⟩)
    0 1 (by decide)
  refine ⟨by simpa using key.1, ?_⟩
  have h2 := congrArg Planet.Mass key.2.2.2.2.1
  simpa using h2

theorem absorb_radius_nonneg (pi : ℝ) (s : ResolverState ℝ) (a b : Ptr)
    (hs : ∀ q, 0 ≤ (s.heap q).Radius) :
    ∀ q, 0 ≤ ((absorb Real.sqrt pi s a b).heap q).Radius := by
  intro q
  unfold absorb
  by_cases h1 : (s.heap b).Area pi < 1 / 10
  · rw [if_pos h1]
    exact Merge_radius_nonneg pi s.heap a b q (hs q)
  · rw [if_neg h1]
    dsimp only
    by_cases h2 : (AddPartialyl Real.sqrt s.heap a b).2 = some Err.TooSmall
    · rw [if_pos h2]
      exact Merge_radius_nonneg pi _ a b q
        (AddPartialyl_radius_nonneg Real.sqrt s.heap a b q (hs a) (hs q))
    · rw [if_neg h2]
      exact AddPartialyl_radius_nonneg Real.sqrt s.heap a b q (hs a) (hs q)

theorem resolvePair_radius_nonneg (pi : ℝ) (s : ResolverState ℝ) (icp : Ptr × Ptr)
    (hs : ∀ q, 0 ≤ (s.heap q).Radius) :
    ∀ q, 0 ≤ ((resolvePair Real.sqrt pi s icp).heap q).Radius := by
  unfold resolvePair
  dsimp only
  split_ifs
  · exact hs
  · exact absorb_radius_nonneg pi s _ _ hs
  · exact absorb_radius_nonneg pi s _ _ hs

theorem resolve_radius_nonneg (pi : ℝ) (cs : List (Ptr × Ptr)) :
    ∀ s : ResolverState ℝ, (∀ q, 0 ≤ (s.heap q).Radius) →
      ∀ q, 0 ≤ ((resolve Real.sqrt pi s cs).heap q).Radius := by
  induction cs with
  | nil => intro s hs; exact hs
  | cons icp cs ih =>
    intro s hs
    exact ih _ (resolvePair_radius_nonneg pi s icp hs)

/-- C12. The radius stays non-negative. For bodies `p`, `p2` with non-negative radii, after
`p.Merge(p2)` and after `p.AddPartialyl(p2)`, whether it returns `nil` or `TooSmall`, the radii of
`p` and of `p2` are non-negative; and if all radii are non-negative before a resolver pass then
all are non-negative after it, whatever the collision list. -/
theorem radius_stays_nonneg (h : Heap ℝ) (p p2 : Ptr) (hp : 0 ≤ (h p).Radius)
    (hp2 : 0 ≤ (h p2).Radius) :
    (0 ≤ ((Merge Real.sqrt Real.pi h p p2) p).Radius
        ∧ 0 ≤ ((Merge Real.sqrt Real.pi h p p2) p2).Radius)
      ∧ (0 ≤ ((AddPartialyl Real.sqrt h p p2).1 p).Radius
        ∧ 0 ≤ ((AddPartialyl Real.sqrt h p p2).1 p2).Radius)
      ∧ ∀ inCollision : List (Ptr × Ptr), (∀ q, 0 ≤ (h q).Radius) →
          ∀ q, 0 ≤ ((resolve Real.sqrt Real.pi ⟨h, [], []⟩ inCollision).heap q).Radius :=
  ⟨⟨Merge_radius_nonneg Real.pi h p p2 p hp, Merge_radius_nonneg Real.pi h p p2 p2 hp2⟩,
    ⟨AddPartialyl_radius_nonneg Real.sqrt h p p2 p hp hp,
      AddPartialyl_radius_nonneg Real.sqrt h p p2 p2 hp hp2⟩,
    fun inCollision hall => resolve_radius_nonneg Real.pi inCollision ⟨h, [], []⟩ hall⟩

/-- C12, at two bodies of radius 10 whose centres are 19 apart. -/
theorem radius_stays_nonneg_witness :
    0 ≤ ((Merge Real.sqrt Real.pi
        (fun q => if q = 0 then NewPlanet (0 : ℝ) 0 10 else NewPlanet 19 0 10) 0 1) 0).Radius
      ∧ 0 ≤ ((AddPartialyl Real.sqrt
        (fun q => if q = 0 then NewPlanet (0 : ℝ) 0 10 else NewPlanet 19 0 10) 0 1).1 1).Radius :=
  ⟨(radius_stays_nonneg (fun q => if q = 0 then NewPlanet (0 : ℝ) 0 10 else NewPlanet 19 0 10)
      0 1 (by norm_num [NewPlanet]) (by norm_num [NewPlanet])).1.1,
    (radius_stays_nonneg (fun q => if q = 0 then NewPlanet (0 : ℝ) 0 10 else NewPlanet 19 0 10)
      0 1 (by norm_num [NewPlanet]) (by norm_num [NewPlanet])).2.1.2⟩

/-! ### The choice of the root in `AddPartialyl` -/

theorem transfer_root (d r2 o g : ℝ) (hd : 0 ≤ d) (ho0 : 0 ≤ o) (hor : o ≤ r2)
    (hg : g = o * o / 2 - r2 * o) :
    g ≤ 0 ∧ 0 ≤ d ^ 2 - 4 * g
      ∧ 0 ≤ (-d + Real.sqrt (d ^ 2 - 4 * g)) / 2
      ∧ (-d - Real.sqrt (d ^ 2 - 4 * g)) / 2 ≤ 0
      ∧ ((-d + Real.sqrt (d ^ 2 - 4 * g)) / 2) ^ 2 + d * ((-d + Real.sqrt (d ^ 2 - 4 * g)) / 2)
          + g = 0 := by
  have hg0 : g ≤ 0 := by rw [hg]; nlinarith
  have hD : 0 ≤ d ^ 2 - 4 * g := by nlinarith [sq_nonneg d]
  have hs0 : 0 ≤ Real.sqrt (d ^ 2 - 4 * g) := Real.sqrt_nonneg _
  have hss : Real.sqrt (d ^ 2 - 4 * g) ^ 2 = d ^ 2 - 4 * g := Real.sq_sqrt hD
  have hsd : d ≤ Real.sqrt (d ^ 2 - 4 * g) := by
    apply Real.le_sqrt_of_sq_le; linarith
  exact ⟨hg0, hD, by linarith, by linarith, by nlinarith⟩

theorem AddPartialyl_root (h : Heap ℝ) (p p2 : Ptr)
    (hs : (AddPartialyl Real.sqrt h p p2).2 ≠ some Err.TooSmall) :
    overlapOf Real.sqrt h p p2 * overlapOf Real.sqrt h p p2 / 2
        - (h p2).Radius * overlapOf Real.sqrt h p p2 ≤ 0
      ∧ 0 ≤ (h p).Distance Real.sqrt (h p2) ^ 2
          - 4 * (overlapOf Real.sqrt h p p2 * overlapOf Real.sqrt h p p2 / 2
              - (h p2).Radius * overlapOf Real.sqrt h p p2)
      ∧ (-(h p).Distance Real.sqrt (h p2)
          - Real.sqrt ((h p).Distance Real.sqrt (h p2) ^ 2
              - 4 * (overlapOf Real.sqrt h p p2 * overlapOf Real.sqrt h p p2 / 2
                  - (h p2).Radius * overlapOf Real.sqrt h p p2))) / 2 ≤ 0
      ∧ transferOf Real.sqrt h p p2
          = (-(h p).Distance Real.sqrt (h p2)
              + Real.sqrt ((h p).Distance Real.sqrt (h p2) ^ 2
                  - 4 * (overlapOf Real.sqrt h p p2 * overlapOf Real.sqrt h p p2 / 2
                      - (h p2).Radius * overlapOf Real.sqrt h p p2))) / 2
      ∧ 0 ≤ transferOf Real.sqrt h p p2
      ∧ transferOf Real.sqrt h p p2 ^ 2
          + (h p).Distance Real.sqrt (h p2) * transferOf Real.sqrt h p p2
          + (overlapOf Real.sqrt h p p2 * overlapOf Real.sqrt h p p2 / 2
              - (h p2).Radius * overlapOf Real.sqrt h p p2) = 0
      ∧ (AddPartialyl Real.sqrt h p p2).2 = none
      ∧ (p ≠ p2 →
          ((AddPartialyl Real.sqrt h p p2).1 p).Radius
              = (h p).Radius + transferOf Real.sqrt h p p2
            ∧ ((AddPartialyl Real.sqrt h p p2).1 p2).Radius
              = (h p2).Radius
                + (transferOf Real.sqrt h p p2 - overlapOf Real.sqrt h p p2)) := by
  have hd := Distance_nonneg (h p) (h p2)
  have hor : overlapOf Real.sqrt h p p2 ≤ (h p2).Radius := by
    by_contra hc
    apply hs
    rw [AddPartialyl_eq, if_pos (not_le.1 hc)]
  have ho0 : 0 ≤ overlapOf Real.sqrt h p p2 := by
    rw [overlapOf_eq_abs]; exact abs_nonneg _
  obtain ⟨hg0, hD, hx1, hx2, hroot⟩ :=
    transfer_root ((h p).Distance Real.sqrt (h p2)) (h p2).Radius
      (overlapOf Real.sqrt h p p2) _ hd ho0 hor rfl
  have hsel : ∀ a b : ℝ, 0 ≤ a → b ≤ 0 → (if a > 0 then a else if b > 0 then b else 0) = a := by
    intro a b ha hb
    split_ifs with h1 h2
    · rfl
    · linarith
    · linarith [not_lt.1 h1]
  have hT : transferOf Real.sqrt h p p2
      = (-(h p).Distance Real.sqrt (h p2)
          + Real.sqrt ((h p).Distance Real.sqrt (h p2) ^ 2
              - 4 * (overlapOf Real.sqrt h p p2 * overlapOf Real.sqrt h p p2 / 2
                  - (h p2).Radius * overlapOf Real.sqrt h p p2))) / 2 := by
    unfold transferOf
    simp only [ite_neg_eq_abs, abs_of_nonneg hd]
    exact hsel _ _ hx1 hx2
  refine ⟨hg0, hD, hx2, hT, by rw [hT]; exact hx1, by rw [hT]; exact hroot, ?_, ?_⟩
  · rw [AddPartialyl_eq, if_neg (not_lt.2 hor)]
  · intro hne
    have hne' : p2 ≠ p := fun e => hne e.symm
    rw [AddPartialyl_eq, if_neg (not_lt.2 hor)]
    simp only [Function.update_same, Function.update_noteq hne, Function.update_noteq hne']
    exact ⟨trivial, trivial⟩

/-- C19. In `AddPartialyl` the square root is always defined and the second root is never
chosen. Whenever the call does not return `TooSmall` (for all radii, so in particular for
non-negative ones), with `distance`, `overlap` and `g = overlap^2/2 - p2.Radius*overlap` the
values of the variables of the source: `g ≤ 0`, the discriminant `distance^2 - 4g` is
non-negative, the root `x2` is not positive, the transfer amount `x` is the root `x1`, it is
non-negative and satisfies `x^2 + distance*x + g = 0`; the call returns `nil` and, for two
different bodies, adds `x` to `p.Radius` and `x - overlap` to `p2.Radius`. -/
theorem AddPartialyl_root_choice (h : Heap ℝ) (p p2 : Ptr)
    (hs : (AddPartialyl Real.sqrt h p p2).2 ≠ some Err.TooSmall) :
    overlapOf Real.sqrt h p p2 * overlapOf Real.sqrt h p p2 / 2
        - (h p2).Radius * overlapOf Real.sqrt h p p2 ≤ 0
      ∧ 0 ≤ (h p).Distance Real.sqrt (h p2) ^ 2
          - 4 * (overlapOf Real.sqrt h p p2 * overlapOf Real.sqrt h p p2 / 2
              - (h p2).Radius * overlapOf Real.sqrt h p p2)
      ∧ (-(h p).Distance Real.sqrt (h p2)
          - Real.sqrt ((h p).Distance Real.sqrt (h p2) ^ 2
              - 4 * (overlapOf Real.sqrt h p p2 * overlapOf Real.sqrt h p p2 / 2
                  - (h p2).Radius * overlapOf Real.sqrt h p p2))) / 2 ≤ 0
      ∧ transferOf Real.sqrt h p p2
          = (-(h p).Distance Real.sqrt (h p2)
              + Real.sqrt ((h p).Distance Real.sqrt (h p2) ^ 2
                  - 4 * (overlapOf Real.sqrt h p p2 * overlapOf Real.sqrt h p p2 / 2
                      - (h p2).Radius * overlapOf Real.sqrt h p p2))) / 2
      ∧ 0 ≤ transferOf Real.sqrt h p p2
      ∧ transferOf Real.sqrt h p p2 ^ 2
          + (h p).Distance Real.sqrt (h p2) * transferOf Real.sqrt h p p2
          + (overlapOf Real.sqrt h p p2 * overlapOf Real.sqrt h p p2 / 2
              - (h p2).Radius * overlapOf Real.sqrt h p p2) = 0
      ∧ (AddPartialyl Real.sqrt h p p2).2 = none
      ∧ (p ≠ p2 →
          ((AddPartialyl Real.sqrt h p p2).1 p).Radius
              = (h p).Radius + transferOf Real.sqrt h p p2
            ∧ ((AddPartialyl Real.sqrt h p p2).1 p2).Radius
              = (h p2).Radius
                + (transferOf Real.sqrt h p p2 - overlapOf Real.sqrt h p p2)) :=
  AddPartialyl_root h p p2 hs

/-- C19, at two bodies of radius 10 whose centres are 19 apart: the call does not return
`TooSmall`, the transfer amount is non-negative and the call returns `nil`. -/
theorem AddPartialyl_root_choice_witness :
    0 ≤ transferOf Real.sqrt
        (fun q => if q = 0 then NewPlanet (0 : ℝ) 0 10 else NewPlanet 19 0 10) 0 1
      ∧ (AddPartialyl Real.sqrt
        (fun q => if q = 0 then NewPlanet (0 : ℝ) 0 10 else NewPlanet 19 0 10) 0 1).2 = none := by
  have hd : (NewPlanet (0 : ℝ) 0 10).Distance Real.sqrt (NewPlanet (19 : ℝ) 0 10) = 19 := by
    rw [Distance_on_axis _ _ _ _ (by norm_num)]; norm_num
  have hs : (AddPartialyl Real.sqrt
      (fun q => if q = 0 then NewPlanet (0 : ℝ) 0 10 else NewPlanet 19 0 10) 0 1).2
      ≠ some Err.TooSmall := by
    intro hc
    have hlt := (AddPartialyl_err_spec _ 0 1).1.1 hc
    simp only [if_true, one_ne_zero, if_false] at hlt
    rw [hd] at hlt
    norm_num [NewPlanet] at hlt
  have key := AddPartialyl_root_choice
    (fun q => if q = 0 then NewPlanet (0 : ℝ) 0 10 else NewPlanet 19 0 10) 0 1 hs
  exact ⟨key.2.2.2.2.1, key.2.2.2.2.2.2.1⟩

/-! ### The generator, unequal bounds -/

section GeneratorRange

variable {R : Type} [LinearOrderedField R]

theorem GetRandomPlanets_count (rnd : RandSource R) (mn d mx my : Nat) :
    (GetRandomPlanets rnd (mn : Int) ((mn : Int) + (d : Int) + 1) ((mx : Int) + 1)
        ((my : Int) + 1)).map List.length
      = some (mn + rnd.intn % (d + 1) + 1) := by
  have hne : ¬ ((mn : Int) = (mn : Int) + (d : Int) + 1) := by omega
  have hsub : (mn : Int) + (d : Int) + 1 - (mn : Int) = ((d + 1 : Nat) : Int) := by
    push_cast; ring
  have hpos : ¬ (((d + 1 : Nat) : Int) ≤ 0) := by omega
  have hmod : (rnd.intn : Int) % ((d + 1 : Nat) : Int) = ((rnd.intn % (d + 1) : Nat) : Int) :=
    (Int.natCast_mod rnd.intn (d + 1)).symm
  unfold GetRandomPlanets
  simp only [hne, if_false, RandSource.Intn, hsub, hpos, hmod]
  rw [randomPlanetsLoop_length rnd _ _ (by omega) (by omega)]
  simp only [List.length_nil, zero_add, Option.some.injEq]
  omega

/-- C15, the failing inputs. For bounds `min < max` (written `max = min + d + 1`) and a positive
plane size, the generator returns `min + (r mod (max - min)) + 1` bodies, where `r` is the raw
outcome behind `rand.Intn`: the count lies in `[min + 1, max]` and is never `min`, whatever the
random source yields. -/
theorem GetRandomPlanets_never_min (rnd : RandSource R) (mn d mx my : Nat) :
    (GetRandomPlanets rnd (mn : Int) ((mn : Int) + (d : Int) + 1) ((mx : Int) + 1)
        ((my : Int) + 1)).map List.length
        = some (mn + rnd.intn % (d + 1) + 1)
      ∧ (GetRandomPlanets rnd (mn : Int) ((mn : Int) + (d : Int) + 1) ((mx : Int) + 1)
          ((my : Int) + 1)).map List.length
        ≠ some mn := by
  refine ⟨GetRandomPlanets_count rnd mn d mx my, ?_⟩
  rw [GetRandomPlanets_count rnd mn d mx my]
  intro hc
  have := Option.some.inj hc
  omega

end GeneratorRange

/-! ### Wraparound is not toroidal on the negative side -/

/-- C18, the failing input. A body at the origin with velocity `(-10, -10)`, time scale `0.01`
on the `1920 × 1080` plane: the raw new x-coordinate is `-0.1`, the x-coordinate after the step
is `1920.1`, and their difference `1920.2` is not an integer multiple of the width `1920`. -/
theorem moveBody_not_toroidal :
    ¬ ∃ k : Int,
      (moveBody (1 / 100 : ℝ) 1920 1080 ⟨⟨0, 0⟩, ⟨-10, -10⟩, 0, 3⟩).Pos.X
          - ((0 : ℝ) + -10 * (1 / 100))
        = (k : ℝ) * 1920 := by
  have hX : Mod ((0 : ℝ) + -10 * (1 / 100)) ((1920 : Int) : ℝ) = -(1 / 10) := by
    rw [Mod_small_neg _ _ (by norm_num) (by norm_num) (by norm_num)]; norm_num
  rintro ⟨k, hk⟩
  simp only [moveBody, hX] at hk
  norm_num at hk
  have h1 : ((9600 * k - 9601 : Int) : ℝ) = 0 := by
    push_cast; linarith
  have h2 : (9600 * k - 9601 : Int) = 0 := by exact_mod_cast h1
  omega

/-! ### Angles -/

/-- C14. Over the reals `FromDirection` is the lossy inverse of `Normalize`: for a vector `v`
with non-zero length `L = sqrt(v.X^2 + v.Y^2)`, `FromDirection(v.Normalize(), L)` is the vector
`(|v.X|, v.Y)`. -/
theorem FromDirection_Normalize (v : Vector ℝ) (hL : Real.sqrt (v.X ^ 2 + v.Y ^ 2) ≠ 0) :
    FromDirection Real.sin Real.sqrt (v.Normalize Real.arcsin Real.sqrt)
        (Real.sqrt (v.X ^ 2 + v.Y ^ 2))
      = ⟨|v.X|, v.Y⟩ := by
  have hnn : 0 ≤ v.X ^ 2 + v.Y ^ 2 := add_nonneg (sq_nonneg _) (sq_nonneg _)
  have hc0 : 0 ≤ Real.sqrt (v.X ^ 2 + v.Y ^ 2) := Real.sqrt_nonneg _
  have hcpos : 0 < Real.sqrt (v.X ^ 2 + v.Y ^ 2) := lt_of_le_of_ne hc0 (Ne.symm hL)
  have hcc : Real.sqrt (v.X ^ 2 + v.Y ^ 2) * Real.sqrt (v.X ^ 2 + v.Y ^ 2)
      = v.X ^ 2 + v.Y ^ 2 := Real.mul_self_sqrt hnn
  have hyc : |v.Y| ≤ Real.sqrt (v.X ^ 2 + v.Y ^ 2) :=
    Real.abs_le_sqrt (le_add_of_nonneg_left (sq_nonneg _))
  have hlo : -1 ≤ v.Y / Real.sqrt (v.X ^ 2 + v.Y ^ 2) := by
    rw [le_div_iff₀ hcpos]
    linarith [neg_abs_le v.Y]
  have hhi : v.Y / Real.sqrt (v.X ^ 2 + v.Y ^ 2) ≤ 1 := by
    rw [div_le_iff₀ hcpos]
    linarith [le_abs_self v.Y]
  have hxy : v.X * v.X + v.Y * v.Y = v.X ^ 2 + v.Y ^ 2 := by ring
  unfold FromDirection Vector.Normalize
  simp only [hxy, Real.sin_arcsin hlo hhi, mul_div_cancel₀ _ hL, Vector.mk.injEq]
  rw [hcc]
  refine ⟨?_, trivial⟩
  rw [show v.X ^ 2 + v.Y ^ 2 - v.Y * v.Y = v.X ^ 2 by ring]
  exact Real.sqrt_sq_eq_abs v.X

/-- C14, at the vector `(-3, 4)` of length 5: the round trip yields `(3, 4)`. -/
theorem FromDirection_Normalize_witness :
    FromDirection Real.sin Real.sqrt
        (Vector.Normalize Real.arcsin Real.sqrt (⟨-3, 4⟩ : Vector ℝ))
        (Real.sqrt ((-3 : ℝ) ^ 2 + (4 : ℝ) ^ 2))
      = ⟨|(-3 : ℝ)|, 4⟩ :=
  FromDirection_Normalize ⟨-3, 4⟩ (Real.sqrt_ne_zero'.2 (by norm_num))

/-! ### Who eats whom -/

section Absorber

variable {R : Type} [LinearOrderedField R]

theorem resolvePair_calls (sqrt : R → R) (pi : R) (s : ResolverState R) (icp : Ptr × Ptr) :
    ∃ later, (resolvePair sqrt pi s icp).calls = s.calls ++ later
      ∧ (∀ c ∈ later,
          (s.heap c.argument).Area pi ≤ (s.heap c.receiver).Area pi
            ∧ ((c.receiver = icp.1 ∧ c.argument = icp.2)
              ∨ (c.receiver = icp.2 ∧ c.argument = icp.1))
            ∧ ((s.heap icp.1).Area pi = (s.heap icp.2).Area pi
              → c.receiver = icp.2 ∧ c.argument = icp.1))
      ∧ ((resolvePair sqrt pi s icp).toRemove = s.toRemove
        ∨ ∃ c ∈ later, c = Call.Merge c.receiver c.argument
            ∧ (resolvePair sqrt pi s icp).toRemove = s.toRemove ++ [c.argument]) := by
  have key : ∀ a b : Ptr,
      ∃ later, (absorb sqrt pi s a b).calls = s.calls ++ later
        ∧ (∀ c ∈ later, c.receiver = a ∧ c.argument = b)
        ∧ ((absorb sqrt pi s a b).toRemove = s.toRemove
          ∨ ∃ c ∈ later, c = Call.Merge c.receiver c.argument
              ∧ (absorb sqrt pi s a b).toRemove = s.toRemove ++ [c.argument]) := by
    intro a b
    unfold absorb
    by_cases h1 : (s.heap b).Area pi < 1 / 10
    · rw [if_pos h1]
      exact ⟨[Call.Merge a b], rfl, by simp [Call.receiver, Call.argument],
        Or.inr ⟨Call.Merge a b, by simp, rfl, rfl⟩⟩
    · rw [if_neg h1]
      dsimp only
      by_cases h2 : (AddPartialyl sqrt s.heap a b).2 = some Err.TooSmall
      · rw [if_pos h2]
        exact ⟨[Call.AddPartialyl a b, Call.Merge a b], rfl,
          by simp [Call.receiver, Call.argument], Or.inr ⟨Call.Merge a b, by simp, rfl, rfl⟩⟩
      · rw [if_neg h2]
        exact ⟨[Call.AddPartialyl a b], rfl, by simp [Call.receiver, Call.argument], Or.inl rfl⟩
  unfold resolvePair
  dsimp only
  by_cases hskip : (s.toRemove.any (fun ptr => decide (icp.1 = ptr ∨ icp.2 = ptr))) = true
  · rw [if_pos hskip]
    exact ⟨[], by simp, by simp, Or.inl rfl⟩
  · rw [if_neg hskip]
    by_cases hA : (s.heap icp.1).Area pi > (s.heap icp.2).Area pi
    · rw [if_pos hA]
      obtain ⟨later, hc, hl, hr⟩ := key icp.1 icp.2
      refine ⟨later, hc, ?_, hr⟩
      intro c hcl
      obtain ⟨h1, h2⟩ := hl c hcl
      rw [h1, h2]
      exact ⟨le_of_lt hA, Or.inl ⟨rfl, rfl⟩, fun he => absurd he (ne_of_gt hA)⟩
    · rw [if_neg hA]
      obtain ⟨later, hc, hl, hr⟩ := key icp.2 icp.1
      refine ⟨later, hc, ?_, hr⟩
      intro c hcl
      obtain ⟨h1, h2⟩ := hl c hcl
      rw [h1, h2]
      exact ⟨not_lt.1 hA, Or.inr ⟨rfl, rfl⟩, fun _ => ⟨rfl, rfl⟩⟩

theorem AddPartialyl_TooSmall_heap (sqrt : R → R) (h : Heap R) (p p2 : Ptr)
    (hs : (AddPartialyl sqrt h p p2).2 = some Err.TooSmall) :
    (AddPartialyl sqrt h p p2).1 = h := by
  rw [AddPartialyl_eq] at hs ⊢
  by_cases hc : (h p2).Radius < overlapOf sqrt h p p2
  · rw [if_pos hc]
  · rw [if_neg hc] at hs
    simp at hs

/-- C17. The bigger body always eats. The resolver handles a collision pair `icp` in a state
`s` (any state, so in particular every state it reaches in a tick). Every method call it makes
for the pair has as receiver (absorber) one member of the pair and as argument the other, and the
area of the receiver is at least the area of the argument at that moment (areas in `s`; the only
call made after another one is the `Merge` after an `AddPartialyl` that returned `TooSmall`, and
that call left the heap as it was). On equal areas the second member of the pair is the receiver.
A body is put on the removal list only as the argument of such a `Merge` call. -/
theorem bigger_body_eats (sqrt : R → R) (pi : R) (s : ResolverState R) (icp : Ptr × Ptr) :
    (∃ later, (resolvePair sqrt pi s icp).calls = s.calls ++ later
      ∧ (∀ c ∈ later,
          (s.heap c.argument).Area pi ≤ (s.heap c.receiver).Area pi
            ∧ ((c.receiver = icp.1 ∧ c.argument = icp.2)
              ∨ (c.receiver = icp.2 ∧ c.argument = icp.1))
            ∧ ((s.heap icp.1).Area pi = (s.heap icp.2).Area pi
              → c.receiver = icp.2 ∧ c.argument = icp.1))
      ∧ ((resolvePair sqrt pi s icp).toRemove = s.toRemove
        ∨ ∃ c ∈ later, c = Call.Merge c.receiver c.argument
            ∧ (resolvePair sqrt pi s icp).toRemove = s.toRemove ++ [c.argument]))
      ∧ ∀ a b : Ptr, (AddPartialyl sqrt s.heap a b).2 = some Err.TooSmall
          → (AddPartialyl sqrt s.heap a b).1 = s.heap :=
  ⟨resolvePair_calls sqrt pi s icp, fun a b => AddPartialyl_TooSmall_heap sqrt s.heap a b⟩

end Absorber

/-! ### A lone pair in deep overlap -/

theorem detect_two (h : Heap ℝ) (a b : Ptr) (hab : a ≠ b)
    (hov : (h a).Distance Real.sqrt (h b) ≤ (h a).Radius + (h b).Radius) :
    detect Real.sqrt h [a, b] = [(a, b), (b, a)] := by
  have h01 := (detectPair_real h a b hab).2 hov
  have h10 := (detectPair_real h b a (Ne.symm hab)).2
    (by rw [Distance_comm, add_comm]; exact hov)
  have h00 : ∀ c : Ptr, detectPair Real.sqrt h c c [] = [] := by
    intro c; simp [detectPair]
  rw [detect_eq]
  simp [h01, h10, h00]

theorem absorb_deep (pi : ℝ) (s : ResolverState ℝ) (x y : Ptr)
    (hdeep : (s.heap y).Radius
      < |(s.heap x).Radius + (s.heap y).Radius - (s.heap x).Distance Real.sqrt (s.heap y)|) :
    (absorb Real.sqrt pi s x y).heap = Merge Real.sqrt pi s.heap x y
      ∧ (absorb Real.sqrt pi s x y).toRemove = s.toRemove ++ [y] := by
  unfold absorb
  by_cases h1 : (s.heap y).Area pi < 1 / 10
  · rw [if_pos h1]
    exact ⟨rfl, rfl⟩
  · rw [if_neg h1]
    dsimp only
    have h2 : (AddPartialyl Real.sqrt s.heap x y).2 = some Err.TooSmall :=
      (AddPartialyl_err_spec s.heap x y).1.2 hdeep
    rw [if_pos h2, (AddPartialyl_err_spec s.heap x y).2 h2]
    exact ⟨rfl, rfl⟩

theorem resolvePair_skip (pi : ℝ) (s : ResolverState ℝ) (icp : Ptr × Ptr)
    (hmem : icp.1 ∈ s.toRemove ∨ icp.2 ∈ s.toRemove) :
    resolvePair Real.sqrt pi s icp = s := by
  unfold resolvePair
  dsimp only
  rw [if_pos]
  rcases hmem with hm | hm
  · exact List.any_eq_true.2 ⟨icp.1, hm, by simp⟩
  · exact List.any_eq_true.2 ⟨icp.2, hm, by simp⟩

/-- The resolver on the two reports of a lone pair, when `x` is the absorber, `y` the absorbed
body and the overlap is deeper than the radius of `y`: one `Merge`, and `y` is marked. -/
theorem resolve_two_deep (pi : ℝ) (h : Heap ℝ) (x y : Ptr) (first second : Ptr × Ptr)
    (hfirst : resolvePair Real.sqrt pi ⟨h, [], []⟩ first = absorb Real.sqrt pi ⟨h, [], []⟩ x y)
    (hsecond : second.1 = y ∨ second.2 = y)
    (hdeep : (h y).Radius < |(h x).Radius + (h y).Radius - (h x).Distance Real.sqrt (h y)|) :
    (resolve Real.sqrt pi ⟨h, [], []⟩ [first, second]).heap = Merge Real.sqrt pi h x y
      ∧ (resolve Real.sqrt pi ⟨h, [], []⟩ [first, second]).toRemove = [y] := by
  obtain ⟨hh, ht⟩ := absorb_deep pi ⟨h, [], []⟩ x y hdeep
  have hstep : resolve Real.sqrt pi ⟨h, [], []⟩ [first, second]
      = resolvePair Real.sqrt pi (resolvePair Real.sqrt pi ⟨h, [], []⟩ first) second := rfl
  rw [hstep, hfirst]
  rw [resolvePair_skip pi _ second (by
    rw [ht]
    rcases hsecond with h1 | h1
    · left; rw [h1]; simp
    · right; rw [h1]; simp)]
  exact ⟨hh, by rw [ht]; rfl⟩

theorem collideAndRemove_deep (h : Heap ℝ) (a b : Ptr) (hab : a ≠ b)
    (hra : 0 ≤ (h a).Radius) (hrb : 0 ≤ (h b).Radius)
    (hdeep : (if (h a).Area Real.pi > (h b).Area Real.pi then (h b).Radius else (h a).Radius)
      < (h a).Radius + (h b).Radius - (h a).Distance Real.sqrt (h b)) :
    ∃ h' : Heap ℝ,
      collideAndRemove Real.sqrt Real.pi h [a, b]
          = some (h', [if (h a).Area Real.pi > (h b).Area Real.pi then a else b])
        ∧ (h' (if (h a).Area Real.pi > (h b).Area Real.pi then a else b)).Area Real.pi
          = (h a).Area Real.pi + (h b).Area Real.pi := by
  have hnd : ([a, b] : List Ptr).Nodup := by simp [hab]
  have hopos : 0 < (h a).Radius + (h b).Radius - (h a).Distance Real.sqrt (h b) := by
    split_ifs at hdeep <;> linarith
  have hov : (h a).Distance Real.sqrt (h b) ≤ (h a).Radius + (h b).Radius := by linarith
  have hdet := detect_two h a b hab hov
  by_cases hA : (h a).Area Real.pi > (h b).Area Real.pi
  · rw [if_pos hA] at hdeep
    simp only [if_pos hA]
    have hfirst : resolvePair Real.sqrt Real.pi ⟨h, [], []⟩ (a, b)
        = absorb Real.sqrt Real.pi ⟨h, [], []⟩ a b := by
      unfold resolvePair
      dsimp only
      rw [if_neg (by simp), if_pos hA]
    obtain ⟨hh, ht⟩ := resolve_two_deep Real.pi h a b (a, b) (b, a) hfirst (Or.inl rfl)
      (by rw [abs_of_pos hopos]; exact hdeep)
    refine ⟨Merge Real.sqrt Real.pi h a b, ?_, Merge_area h a b⟩
    unfold collideAndRemove
    simp only [hdet, ht, hh]
    rw [removalPass_filter [a, b] [b] hnd (by simp)]
    simp [hab]
  · rw [if_neg hA] at hdeep
    simp only [if_neg hA]
    have hfirst : resolvePair Real.sqrt Real.pi ⟨h, [], []⟩ (a, b)
        = absorb Real.sqrt Real.pi ⟨h, [], []⟩ b a := by
      unfold resolvePair
      dsimp only
      rw [if_neg (by simp), if_neg hA]
    obtain ⟨hh, ht⟩ := resolve_two_deep Real.pi h b a (a, b) (b, a) hfirst (Or.inr rfl)
      (by
        rw [Distance_comm (h b) (h a), add_comm (h b).Radius, abs_of_pos hopos]
        exact hdeep)
    refine ⟨Merge Real.sqrt Real.pi h b a, ?_, ?_⟩
    · unfold collideAndRemove
      simp only [hdet, ht, hh]
      rw [removalPass_filter [a, b] [a] hnd (by simp)]
      simp [Ne.symm hab]
    · rw [Merge_area h b a, add_comm]

/-- C16. Deep overlap of a lone pair ends in one area-conserving merge. For a population of
exactly two bodies `a`, `b` with non-negative radii whose overlap (sum of the radii minus the
distance) is larger than the radius of the smaller-area body (on a tie, of the first body `a`),
one pass of detector, resolver and removal does not panic and leaves exactly one body in the
population: `a` if its area is the larger one, else `b`; and the area of the survivor is the
sum of the two areas before the tick. -/
theorem lone_pair_deep_overlap (h : Heap ℝ) (a b : Ptr) (hab : a ≠ b)
    (hra : 0 ≤ (h a).Radius) (hrb : 0 ≤ (h b).Radius)
    (hdeep : (if (h a).Area Real.pi > (h b).Area Real.pi then (h b).Radius else (h a).Radius)
      < (h a).Radius + (h b).Radius - (h a).Distance Real.sqrt (h b)) :
    ∃ h' : Heap ℝ,
      collideAndRemove Real.sqrt Real.pi h [a, b]
          = some (h', [if (h a).Area Real.pi > (h b).Area Real.pi then a else b])
        ∧ (h' (if (h a).Area Real.pi > (h b).Area Real.pi then a else b)).Area Real.pi
          = (h a).Area Real.pi + (h b).Area Real.pi :=
  collideAndRemove_deep h a b hab hra hrb hdeep

/-- C16, at the scenario of the specification: radii 10 and 10, centres 5 apart. The areas tie,
so the second body absorbs the first; it alone is left and its area is `200 * pi`. -/
theorem lone_pair_deep_overlap_witness :
    ∃ h' : Heap ℝ,
      collideAndRemove Real.sqrt Real.pi
          (fun q => if q = 0 then NewPlanet (0 : ℝ) 0 10 else NewPlanet 5 0 10) [0, 1]
          = some (h', [1])
        ∧ (h' 1).Area Real.pi = 200 * Real.pi := by
  have hd : (NewPlanet (0 : ℝ) 0 10).Distance Real.sqrt (NewPlanet (5 : ℝ) 0 10) = 5 := by
    rw [Distance_on_axis _ _ _ _ (by norm_num)]; norm_num
  obtain ⟨h', h1, h2⟩ := lone_pair_deep_overlap
    (fun q => if q = 0 then NewPlanet (0 : ℝ) 0 10 else NewPlanet 5 0 10) 0 1 (by decide)
    (by norm_num [NewPlanet]) (by norm_num [NewPlanet])
    (by simp only [if_true, one_ne_zero, if_false]; rw [hd]; norm_num [NewPlanet])
  have hsel : (if ((fun q : Ptr => if q = 0 then NewPlanet (0 : ℝ) 0 10 else NewPlanet 5 0 10)
        0).Area Real.pi
      > ((fun q : Ptr => if q = 0 then NewPlanet (0 : ℝ) 0 10 else NewPlanet 5 0 10)
        1).Area Real.pi then (0 : Ptr) else 1) = 1 := by
    simp [NewPlanet, Planet.Area]
  rw [hsel] at h1 h2
  refine ⟨h', h1, ?_⟩
  rw [h2]
  simp only [if_true, one_ne_zero, if_false, NewPlanet, Planet.Area]
  ring

/-! ### Rounded arithmetic -/

section RoundedExact

variable {R : Type} [LinearOrderedField R]

theorem DistanceFl_id (sqrt : R → R) (p p2 : Planet R) :
    p.DistanceFl id id sqrt p2 = p.Distance sqrt p2 :=
  rfl

theorem detectPairFl_id (sqrt : R → R) (h : Heap R) (p1 p2 : Ptr) (acc : List (Ptr × Ptr)) :
    detectPairFl id id sqrt h p1 p2 acc = detectPair sqrt h p1 p2 acc :=
  rfl

theorem detectFl_id (sqrt : R → R) (h : Heap R) (planets : List Ptr) :
    detectFl id id sqrt h planets = detect sqrt h planets :=
  rfl

theorem AddPartialylFl_id (sqrt : R → R) (h : Heap R) (p p2 : Ptr) :
    AddPartialylFl id id sqrt h p p2 = AddPartialyl sqrt h p p2 :=
  rfl

end RoundedExact

section Rounding

variable {R : Type} [LinearOrderedField R] [FloorRing R]

theorem roundHalfEven_eq (y : R) (n : Int) (h : |y - (n : R)| < 1 / 2) :
    roundHalfEven y = n := by
  obtain ⟨h1, h2⟩ := abs_lt.1 h
  unfold roundHalfEven
  by_cases hy : (n : R) ≤ y
  · have hf : Int.floor y = n := by
      rw [Int.floor_eq_iff]; constructor <;> linarith
    simp only [hf]
    rw [if_pos h2]
  · have hy' := not_le.1 hy
    have hf : Int.floor y = n - 1 := by
      rw [Int.floor_eq_iff]; push_cast; constructor <;> linarith
    simp only [hf]
    push_cast
    rw [if_neg (by linarith), if_pos (by linarith)]
    ring

theorem roundHalfEven_ge (y : R) (m : Int) (h : (m : R) ≤ y) : m ≤ roundHalfEven y := by
  have hf : m ≤ Int.floor y := Int.le_floor.2 h
  unfold roundHalfEven
  dsimp only
  split_ifs <;> omega

theorem roundHalfEven_le (y : R) (m : Int) (h : y ≤ (m : R)) : roundHalfEven y ≤ m := by
  have hf : Int.floor y ≤ m := by
    have := Int.floor_le y
    exact_mod_cast (this.trans h)
  unfold roundHalfEven
  dsimp only
  by_cases hm : Int.floor y = m
  · have hy : y - ((Int.floor y : Int) : R) ≤ 0 := by rw [hm]; linarith
    rw [if_pos (by linarith)]
    exact hf
  · split_ifs <;> omega

theorem roundHalfEven_err (y : R) : |((roundHalfEven y : Int) : R) - y| ≤ 1 / 2 := by
  have h1 := Int.floor_le y
  have h2 := Int.lt_floor_add_one y
  unfold roundHalfEven
  dsimp only
  rw [abs_le]
  split_ifs with a b c
  · constructor <;> linarith
  · push_cast; constructor <;> linarith
  · have hb := not_lt.1 b
    have ha := not_lt.1 a
    constructor <;> linarith
  · have hb := not_lt.1 b
    have ha := not_lt.1 a
    push_cast
    constructor <;> linarith

theorem log_two_eq (x : R) (e : Int) (h1 : (2 : R) ^ e ≤ |x|) (h2 : |x| < (2 : R) ^ (e + 1)) :
    Int.log 2 |x| = e := by
  have hpos : 0 < |x| := lt_of_lt_of_le (zpow_pos (by norm_num) e) h1
  have a : e ≤ Int.log 2 |x| := by
    rw [← Int.zpow_le_iff_le_log (by norm_num) hpos]; exact_mod_cast h1
  have b : Int.log 2 |x| < e + 1 := by
    rw [← Int.lt_zpow_iff_log_lt (by norm_num) hpos]; exact_mod_cast h2
  omega

theorem roundBinary_eq (prec : Nat) (x : R) (e n : Int) (h1 : (2 : R) ^ e ≤ |x|)
    (h2 : |x| < (2 : R) ^ (e + 1))
    (hn : |x / (2 : R) ^ (e - ((prec : Int) - 1)) - (n : R)| < 1 / 2) :
    roundBinary prec x = (2 : R) ^ (e - ((prec : Int) - 1)) * (n : R) := by
  have hpos : 0 < |x| := lt_of_lt_of_le (zpow_pos (by norm_num) e) h1
  have hx : x ≠ 0 := abs_pos.1 hpos
  unfold roundBinary
  rw [if_neg hx]
  simp only [log_two_eq x e h1 h2, roundHalfEven_eq _ n hn]

theorem roundBinary_exact (prec : Nat) (x : R) (e n : Int) (h1 : (2 : R) ^ e ≤ |x|)
    (h2 : |x| < (2 : R) ^ (e + 1)) (hn : x = (2 : R) ^ (e - ((prec : Int) - 1)) * (n : R)) :
    roundBinary prec x = x := by
  have hq : (0 : R) < (2 : R) ^ (e - ((prec : Int) - 1)) := zpow_pos (by norm_num) _
  rw [roundBinary_eq prec x e n h1 h2, ← hn]
  have : x / (2 : R) ^ (e - ((prec : Int) - 1)) = (n : R) := by
    rw [div_eq_iff hq.ne']; rw [hn]; ring
  rw [this]; simp

theorem roundBinary_zero (prec : Nat) : roundBinary prec (0 : R) = 0 := by
  simp [roundBinary]

theorem roundBinary_nonneg (prec : Nat) (x : R) (hx : 0 ≤ x) : 0 ≤ roundBinary prec x := by
  unfold roundBinary
  split_ifs with h0
  · exact le_refl 0
  · have hq : (0 : R) < (2 : R) ^ (Int.log 2 |x| - ((prec : Int) - 1)) :=
      zpow_pos (by norm_num) _
    have := roundHalfEven_ge (x / (2 : R) ^ (Int.log 2 |x| - ((prec : Int) - 1))) 0
      (by simpa using div_nonneg hx hq.le)
    exact mul_nonneg hq.le (by exact_mod_cast this)

theorem roundBinary_nonpos (prec : Nat) (x : R) (hx : x ≤ 0) : roundBinary prec x ≤ 0 := by
  unfold roundBinary
  split_ifs with h0
  · exact le_refl 0
  · have hq : (0 : R) < (2 : R) ^ (Int.log 2 |x| - ((prec : Int) - 1)) :=
      zpow_pos (by norm_num) _
    have := roundHalfEven_le (x / (2 : R) ^ (Int.log 2 |x| - ((prec : Int) - 1))) 0
      (by simpa using div_nonpos_of_nonpos_of_nonneg hx hq.le)
    exact mul_nonpos_of_nonneg_of_nonpos hq.le (by exact_mod_cast this)

theorem roundBinary_le_two_zpow (prec : Nat) (hp : 1 ≤ prec) (x : R) (k : Int)
    (hx : x ≤ (2 : R) ^ k) : roundBinary prec x ≤ (2 : R) ^ k := by
  by_cases hx0 : x ≤ 0
  · exact (roundBinary_nonpos prec x hx0).trans (zpow_pos (by norm_num) k).le
  · have hxpos : 0 < x := not_le.1 hx0
    have habs : |x| = x := abs_of_pos hxpos
    have hlog : Int.log 2 |x| ≤ k := by
      have h1 : (2 : R) ^ (Int.log 2 |x|) ≤ |x| := by
        have := Int.zpow_log_le_self (b := 2) (r := |x|) (by norm_num) (by rw [habs]; exact hxpos)
        exact_mod_cast this
      have h2 : (2 : R) ^ (Int.log 2 |x|) ≤ (2 : R) ^ k := h1.trans ((le_of_eq habs).trans hx)
      exact (zpow_le_zpow_iff_right₀ (by norm_num : (1 : R) < 2)).1 h2
    unfold roundBinary
    rw [if_neg hxpos.ne']
    dsimp only
    have hq : (0 : R) < (2 : R) ^ (Int.log 2 |x| - ((prec : Int) - 1)) :=
      zpow_pos (by norm_num) _
    have hN : 0 ≤ k - (Int.log 2 |x| - ((prec : Int) - 1)) := by omega
    have hm : ((2 ^ (k - (Int.log 2 |x| - ((prec : Int) - 1))).toNat : Int) : R)
        = (2 : R) ^ (k - (Int.log 2 |x| - ((prec : Int) - 1))) := by
      push_cast
      rw [← zpow_natCast, Int.toNat_of_nonneg hN]
    have hle := roundHalfEven_le (x / (2 : R) ^ (Int.log 2 |x| - ((prec : Int) - 1)))
      (2 ^ (k - (Int.log 2 |x| - ((prec : Int) - 1))).toNat) (by
        rw [hm, div_le_iff₀ hq, ← zpow_add₀ (by norm_num : (2 : R) ≠ 0)]
        simpa using hx)
    calc (2 : R) ^ (Int.log 2 |x| - ((prec : Int) - 1))
          * ((roundHalfEven (x / (2 : R) ^ (Int.log 2 |x| - ((prec : Int) - 1))) : Int) : R)
        ≤ (2 : R) ^ (Int.log 2 |x| - ((prec : Int) - 1))
          * (((2 ^ (k - (Int.log 2 |x| - ((prec : Int) - 1))).toNat : Int) : Int) : R) :=
          mul_le_mul_of_nonneg_left (by exact_mod_cast hle) hq.le
      _ = (2 : R) ^ k := by
          rw [hm, ← zpow_add₀ (by norm_num : (2 : R) ≠ 0)]; congr 1; ring

theorem roundBinary_err (prec : Nat) (x : R) (e : Int) (h1 : (2 : R) ^ e ≤ |x|)
    (h2 : |x| < (2 : R) ^ (e + 1)) :
    |roundBinary prec x - x| ≤ (2 : R) ^ (e - ((prec : Int) - 1)) / 2 := by
  have hpos : 0 < |x| := lt_of_lt_of_le (zpow_pos (by norm_num) e) h1
  have hx : x ≠ 0 := abs_pos.1 hpos
  have hq : (0 : R) < (2 : R) ^ (e - ((prec : Int) - 1)) := zpow_pos (by norm_num) _
  unfold roundBinary
  rw [if_neg hx]
  simp only [log_two_eq x e h1 h2]
  have herr := roundHalfEven_err (x / (2 : R) ^ (e - ((prec : Int) - 1)))
  have : (2 : R) ^ (e - ((prec : Int) - 1))
        * ((roundHalfEven (x / (2 : R) ^ (e - ((prec : Int) - 1))) : Int) : R) - x
      = (2 : R) ^ (e - ((prec : Int) - 1))
        * (((roundHalfEven (x / (2 : R) ^ (e - ((prec : Int) - 1))) : Int) : R)
            - x / (2 : R) ^ (e - ((prec : Int) - 1))) := by
    field_simp
    ring
  rw [this, abs_mul, abs_of_pos hq]
  calc (2 : R) ^ (e - ((prec : Int) - 1)) * _ ≤ (2 : R) ^ (e - ((prec : Int) - 1)) * (1 / 2) :=
        mul_le_mul_of_nonneg_left herr hq.le
    _ = _ := by ring

end Rounding

/-! ### The detector in rounded arithmetic -/

section PairLoop

/-- The shape of the detector's two loops, for any loop body `step` that appends at most the
pair it is given. -/
theorem pairLoop_eq (step : Ptr → Ptr → List (Ptr × Ptr) → List (Ptr × Ptr))
    (hacc : ∀ p1 p2 acc, step p1 p2 acc = acc ++ step p1 p2 []) (planets : List Ptr) :
    planets.foldl (fun acc p1 => planets.foldl (fun acc p2 => step p1 p2 acc) acc) []
      = planets.flatMap (fun p1 => planets.flatMap (fun p2 => step p1 p2 [])) := by
  have inner : ∀ (p1 : Ptr) (l : List Ptr) (acc : List (Ptr × Ptr)),
      l.foldl (fun acc p2 => step p1 p2 acc) acc = acc ++ l.flatMap (fun p2 => step p1 p2 []) := by
    intro p1 l
    induction l with
    | nil => intro acc; simp
    | cons a l ih =>
      intro acc
      rw [List.foldl_cons, ih, hacc, List.flatMap_cons, List.append_assoc]
  have outer : ∀ (l : List Ptr) (acc : List (Ptr × Ptr)),
      l.foldl (fun acc p1 => planets.foldl (fun acc p2 => step p1 p2 acc) acc) acc
        = acc ++ l.flatMap (fun p1 => planets.flatMap (fun p2 => step p1 p2 [])) := by
    intro l
    induction l with
    | nil => intro acc; simp
    | cons a l ih =>
      intro acc
      rw [List.foldl_cons, ih, inner, List.flatMap_cons, List.append_assoc]
  rw [outer, List.nil_append]

theorem pairLoop_mem_step (step : Ptr → Ptr → List (Ptr × Ptr) → List (Ptr × Ptr))
    (hnil : ∀ p1 p2, step p1 p2 [] = [] ∨ (p1 ≠ p2 ∧ step p1 p2 [] = [(p1, p2)]))
    (p1 p2 : Ptr) (ab : Ptr × Ptr) :
    ab ∈ step p1 p2 [] ↔ ab = (p1, p2) ∧ step p1 p2 [] = [(p1, p2)] := by
  rcases hnil p1 p2 with h0 | ⟨_, h1⟩
  · rw [h0]; simp
  · rw [h1]; simp

theorem pairLoop_mem (step : Ptr → Ptr → List (Ptr × Ptr) → List (Ptr × Ptr))
    (hacc : ∀ p1 p2 acc, step p1 p2 acc = acc ++ step p1 p2 [])
    (hnil : ∀ p1 p2, step p1 p2 [] = [] ∨ (p1 ≠ p2 ∧ step p1 p2 [] = [(p1, p2)]))
    (planets : List Ptr) (a b : Ptr) :
    (a, b) ∈ planets.foldl (fun acc p1 => planets.foldl (fun acc p2 => step p1 p2 acc) acc) []
      ↔ a ∈ planets ∧ b ∈ planets ∧ step a b [] = [(a, b)] := by
  rw [pairLoop_eq step hacc]
  simp only [List.mem_flatMap, pairLoop_mem_step step hnil, Prod.mk.injEq]
  constructor
  · rintro ⟨p1, hp1, p2, hp2, ⟨rfl, rfl⟩, hd⟩
    exact ⟨hp1, hp2, hd⟩
  · rintro ⟨ha, hb, hd⟩
    exact ⟨a, ha, b, hb, ⟨rfl, rfl⟩, hd⟩

theorem pairLoop_nodup (step : Ptr → Ptr → List (Ptr × Ptr) → List (Ptr × Ptr))
    (hacc : ∀ p1 p2 acc, step p1 p2 acc = acc ++ step p1 p2 [])
    (hnil : ∀ p1 p2, step p1 p2 [] = [] ∨ (p1 ≠ p2 ∧ step p1 p2 [] = [(p1, p2)]))
    (planets : List Ptr) (hP : planets.Nodup) :
    (planets.foldl (fun acc p1 => planets.foldl (fun acc p2 => step p1 p2 acc) acc) []).Nodup := by
  rw [pairLoop_eq step hacc, List.nodup_flatMap]
  constructor
  · intro p1 _
    rw [List.nodup_flatMap]
    constructor
    · intro p2 _
      rcases hnil p1 p2 with h0 | ⟨_, h1⟩
      · rw [h0]; exact List.nodup_nil
      · rw [h1]; exact List.nodup_singleton _
    · refine hP.imp ?_
      intro x y hxy
      simp only [Function.onFun]
      rw [List.disjoint_left]
      intro ab hx hy
      rw [pairLoop_mem_step step hnil] at hx hy
      have := hx.1.symm.trans hy.1
      exact hxy (Prod.mk.inj this).2
  · refine hP.imp ?_
    intro x y hxy
    simp only [Function.onFun]
    rw [List.disjoint_left]
    intro ab hx hy
    simp only [List.mem_flatMap, pairLoop_mem_step step hnil] at hx hy
    obtain ⟨_, _, hx1, _⟩ := hx
    obtain ⟨_, _, hy1, _⟩ := hy
    have := hx1.symm.trans hy1
    exact hxy (Prod.mk.inj this).1

end PairLoop

section DetectorRounded

variable {R : Type} [LinearOrderedField R]

theorem detectPairFl_acc (f32 f64 sqrt : R → R) (h : Heap R) (p1 p2 : Ptr)
    (acc : List (Ptr × Ptr)) :
    detectPairFl f32 f64 sqrt h p1 p2 acc = acc ++ detectPairFl f32 f64 sqrt h p1 p2 [] := by
  unfold detectPairFl
  dsimp only
  split_ifs <;> simp

theorem detectPairFl_nil_cases (f32 f64 sqrt : R → R) (h : Heap R) (p1 p2 : Ptr) :
    detectPairFl f32 f64 sqrt h p1 p2 [] = []
      ∨ (p1 ≠ p2 ∧ detectPairFl f32 f64 sqrt h p1 p2 [] = [(p1, p2)]) := by
  unfold detectPairFl
  dsimp only
  split_ifs with h1 h2 h3
  · exact Or.inl rfl
  · exact Or.inl rfl
  · exact Or.inr ⟨h1, rfl⟩
  · exact Or.inl rfl

theorem mem_detectFl (f32 f64 sqrt : R → R) (h : Heap R) (planets : List Ptr) (a b : Ptr) :
    (a, b) ∈ detectFl f32 f64 sqrt h planets
      ↔ a ∈ planets ∧ b ∈ planets ∧ detectPairFl f32 f64 sqrt h a b [] = [(a, b)] :=
  pairLoop_mem (detectPairFl f32 f64 sqrt h) (detectPairFl_acc f32 f64 sqrt h)
    (detectPairFl_nil_cases f32 f64 sqrt h) planets a b

theorem nodup_detectFl (f32 f64 sqrt : R → R) (h : Heap R) (planets : List Ptr)
    (hP : planets.Nodup) : (detectFl f32 f64 sqrt h planets).Nodup :=
  pairLoop_nodup (detectPairFl f32 f64 sqrt h) (detectPairFl_acc f32 f64 sqrt h)
    (detectPairFl_nil_cases f32 f64 sqrt h) planets hP

theorem DistanceFl_comm (f32 f64 sqrt : R → R) (hodd : ∀ x, f32 (-x) = -f32 x)
    (p p2 : Planet R) :
    p.DistanceFl f32 f64 sqrt p2 = p2.DistanceFl f32 f64 sqrt p := by
  have hX : f32 (p2.Pos.X - p.Pos.X) = -f32 (p.Pos.X - p2.Pos.X) := by
    rw [← hodd]; congr 1; ring
  have hY : f32 (p2.Pos.Y - p.Pos.Y) = -f32 (p.Pos.Y - p2.Pos.Y) := by
    rw [← hodd]; congr 1; ring
  unfold Planet.DistanceFl
  simp only [ite_neg_eq_abs, hX, hY, abs_neg]

/-- The pair `(a, b)` is reported iff the bodies are different, the box test does not reject
them and the distance test accepts them, all in the arithmetic given by `f32` and `f64`. -/
theorem detectPairFl_iff (f32 f64 sqrt : R → R) (h : Heap R) (a b : Ptr) :
    detectPairFl f32 f64 sqrt h a b [] = [(a, b)]
      ↔ a ≠ b
        ∧ ¬ (f32 ((h a).Pos.X + (h a).Radius) < f32 ((h b).Pos.X - (h b).Radius)
            ∨ f32 ((h a).Pos.X - (h a).Radius) > f32 ((h b).Pos.X + (h b).Radius)
            ∨ f32 ((h a).Pos.Y + (h a).Radius) < f32 ((h b).Pos.Y - (h b).Radius)
            ∨ f32 ((h a).Pos.Y - (h a).Radius) > f32 ((h b).Pos.Y + (h b).Radius))
        ∧ (h a).DistanceFl f32 f64 sqrt (h b) ≤ f32 ((h a).Radius + (h b).Radius) := by
  unfold detectPairFl
  dsimp only
  split_ifs with h1 h2 h3
  · simp [h1]
  · simp [h2]
  · simp [h1, h2, h3]
  · simp [h3]

theorem detectPairFl_swap (f32 f64 sqrt : R → R) (hodd : ∀ x, f32 (-x) = -f32 x) (h : Heap R)
    (a b : Ptr) :
    detectPairFl f32 f64 sqrt h a b [] = [(a, b)]
      ↔ detectPairFl f32 f64 sqrt h b a [] = [(b, a)] := by
  rw [detectPairFl_iff, detectPairFl_iff, DistanceFl_comm f32 f64 sqrt hodd (h b) (h a),
    add_comm (h b).Radius (h a).Radius]
  constructor
  · rintro ⟨h1, h2, h3⟩
    refine ⟨fun e => h1 e.symm, ?_, h3⟩
    rintro (hh | hh | hh | hh)
    · exact h2 (Or.inr (Or.inl hh))
    · exact h2 (Or.inl hh)
    · exact h2 (Or.inr (Or.inr (Or.inr hh)))
    · exact h2 (Or.inr (Or.inr (Or.inl hh)))
  · rintro ⟨h1, h2, h3⟩
    refine ⟨fun e => h1 e.symm, ?_, h3⟩
    rintro (hh | hh | hh | hh)
    · exact h2 (Or.inr (Or.inl hh))
    · exact h2 (Or.inl hh)
    · exact h2 (Or.inr (Or.inr (Or.inr hh)))
    · exact h2 (Or.inr (Or.inr (Or.inl hh)))

theorem detectFl_counts (f32 f64 sqrt : R → R) (hodd : ∀ x, f32 (-x) = -f32 x) (h : Heap R)
    (planets : List Ptr) (a b : Ptr) (hP : planets.Nodup) (ha : a ∈ planets)
    (hb : b ∈ planets) :
    (detectFl f32 f64 sqrt h planets).count (a, b) ≤ 1
      ∧ (detectFl f32 f64 sqrt h planets).count (b, a)
        = (detectFl f32 f64 sqrt h planets).count (a, b)
      ∧ ((a, b) ∈ detectFl f32 f64 sqrt h planets
        ↔ (a ≠ b
          ∧ ¬ (f32 ((h a).Pos.X + (h a).Radius) < f32 ((h b).Pos.X - (h b).Radius)
              ∨ f32 ((h a).Pos.X - (h a).Radius) > f32 ((h b).Pos.X + (h b).Radius)
              ∨ f32 ((h a).Pos.Y + (h a).Radius) < f32 ((h b).Pos.Y - (h b).Radius)
              ∨ f32 ((h a).Pos.Y - (h a).Radius) > f32 ((h b).Pos.Y + (h b).Radius))
          ∧ (h a).DistanceFl f32 f64 sqrt (h b) ≤ f32 ((h a).Radius + (h b).Radius))) := by
  have hnd := nodup_detectFl f32 f64 sqrt h planets hP
  have hsym : (a, b) ∈ detectFl f32 f64 sqrt h planets
      ↔ (b, a) ∈ detectFl f32 f64 sqrt h planets := by
    rw [mem_detectFl, mem_detectFl, detectPairFl_swap f32 f64 sqrt hodd h a b]
    exact ⟨fun hh => ⟨hh.2.1, hh.1, hh.2.2⟩, fun hh => ⟨hh.2.1, hh.1, hh.2.2⟩⟩
  refine ⟨?_, ?_, ?_⟩
  · by_cases hm : (a, b) ∈ detectFl f32 f64 sqrt h planets
    · exact le_of_eq (count_eq_one_of_nodup_of_mem hnd hm)
    · rw [List.count_eq_zero_of_not_mem hm]; exact Nat.zero_le 1
  · by_cases hm : (a, b) ∈ detectFl f32 f64 sqrt h planets
    · rw [count_eq_one_of_nodup_of_mem hnd hm, count_eq_one_of_nodup_of_mem hnd (hsym.1 hm)]
    · rw [List.count_eq_zero_of_not_mem hm,
        List.count_eq_zero_of_not_mem (fun hh => hm (hsym.2 hh))]
  · rw [mem_detectFl, detectPairFl_iff]
    exact ⟨fun hh => hh.2.2, fun hh => ⟨ha, hb, hh⟩⟩

end DetectorRounded

section RoundingOdd

variable {R : Type} [LinearOrderedField R] [FloorRing R]

theorem roundHalfEven_of_lt (y : R) (h : y - ((Int.floor y : Int) : R) < 1 / 2) :
    roundHalfEven y = Int.floor y := by
  unfold roundHalfEven
  dsimp only
  rw [if_pos h]

theorem roundHalfEven_of_gt (y : R) (h : 1 / 2 < y - ((Int.floor y : Int) : R)) :
    roundHalfEven y = Int.floor y + 1 := by
  unfold roundHalfEven
  dsimp only
  rw [if_neg (not_lt.2 h.le), if_pos h]

theorem roundHalfEven_of_eq (y : R) (h : y - ((Int.floor y : Int) : R) = 1 / 2) :
    roundHalfEven y = if Int.floor y % 2 = 0 then Int.floor y else Int.floor y + 1 := by
  unfold roundHalfEven
  dsimp only
  rw [if_neg (by rw [h]; exact lt_irrefl _), if_neg (by rw [h]; exact lt_irrefl _)]

theorem roundHalfEven_neg (y : R) : roundHalfEven (-y) = -roundHalfEven y := by
  have h1 := Int.floor_le y
  have h2 := Int.lt_floor_add_one y
  by_cases hint : y = ((Int.floor y : Int) : R)
  · have hf : Int.floor (-y) = -Int.floor y := by
      rw [Int.floor_eq_iff]; push_cast; constructor <;> linarith
    rw [roundHalfEven_of_lt y (by linarith),
      roundHalfEven_of_lt (-y) (by rw [hf]; push_cast; linarith), hf]
  · have hlt : ((Int.floor y : Int) : R) < y := lt_of_le_of_ne h1 (Ne.symm hint)
    have hf : Int.floor (-y) = -Int.floor y - 1 := by
      rw [Int.floor_eq_iff]; push_cast; constructor <;> linarith
    rcases lt_trichotomy (y - ((Int.floor y : Int) : R)) (1 / 2) with hc | hc | hc
    · rw [roundHalfEven_of_lt y hc,
        roundHalfEven_of_gt (-y) (by rw [hf]; push_cast; linarith), hf]
      ring
    · rw [roundHalfEven_of_eq y hc,
        roundHalfEven_of_eq (-y) (by rw [hf]; push_cast; linarith), hf]
      by_cases hev : Int.floor y % 2 = 0
      · rw [if_pos hev, if_neg (by omega)]; ring
      · rw [if_neg hev, if_pos (by omega)]; ring
    · rw [roundHalfEven_of_gt y hc,
        roundHalfEven_of_lt (-y) (by rw [hf]; push_cast; linarith), hf]
      ring

theorem roundBinary_neg (prec : Nat) (x : R) : roundBinary prec (-x) = -roundBinary prec x := by
  unfold roundBinary
  by_cases hx : x = 0
  · simp [hx]
  · rw [if_neg hx, if_neg (neg_ne_zero.2 hx)]
    simp only [abs_neg, neg_div, roundHalfEven_neg]
    push_cast
    ring
end RoundingOdd

/-- C5, amended. The detector's output is symmetric. In the code's own arithmetic (every
rounding `f32` that commutes with negation, as IEEE 754 rounding does, and every `f64`), for a
population of pairwise-distinct bodies and two bodies `a`, `b` of it: the collision list holds
the ordered pair `(a, b)` at most once, it holds `(b, a)` exactly as often as `(a, b)`, and it
holds `(a, b)` iff `a` and `b` are different bodies, the box test does not reject them and
`distance <= treshold`. So a pair is either not reported or reported twice, once in each
orientation. -/
theorem detect_symmetric {R : Type} [LinearOrderedField R] (f32 f64 sqrt : R → R)
    (hodd : ∀ x, f32 (-x) = -f32 x) (h : Heap R) (planets : List Ptr) (a b : Ptr)
    (hP : planets.Nodup) (ha : a ∈ planets) (hb : b ∈ planets) :
    (detectFl f32 f64 sqrt h planets).count (a, b) ≤ 1
      ∧ (detectFl f32 f64 sqrt h planets).count (b, a)
        = (detectFl f32 f64 sqrt h planets).count (a, b)
      ∧ ((a, b) ∈ detectFl f32 f64 sqrt h planets
        ↔ (a ≠ b
          ∧ ¬ (f32 ((h a).Pos.X + (h a).Radius) < f32 ((h b).Pos.X - (h b).Radius)
              ∨ f32 ((h a).Pos.X - (h a).Radius) > f32 ((h b).Pos.X + (h b).Radius)
              ∨ f32 ((h a).Pos.Y + (h a).Radius) < f32 ((h b).Pos.Y - (h b).Radius)
              ∨ f32 ((h a).Pos.Y - (h a).Radius) > f32 ((h b).Pos.Y + (h b).Radius))
          ∧ (h a).DistanceFl f32 f64 sqrt (h b) ≤ f32 ((h a).Radius + (h b).Radius))) :=
  detectFl_counts f32 f64 sqrt hodd h planets a b hP ha hb

/-- C5 amended, in `float32` and `float64` arithmetic at a population of two bodies of radius 1
with the same centre: `(1, 0)` is in the list as often as `(0, 1)`. -/
theorem detect_symmetric_witness :
    (detectFl (roundBinary 24) (roundBinary 53) Real.sqrt (fun _ => NewPlanet (0 : ℝ) 0 1)
        [0, 1]).count (1, 0)
      = (detectFl (roundBinary 24) (roundBinary 53) Real.sqrt (fun _ => NewPlanet (0 : ℝ) 0 1)
        [0, 1]).count (0, 1) :=
  (detect_symmetric (roundBinary 24) (roundBinary 53) Real.sqrt (roundBinary_neg 24)
    (fun _ => NewPlanet (0 : ℝ) 0 1) [0, 1] 0 1 (by decide) (by simp) (by simp)).2.1

/-! ### `Merge` with the same handle twice -/

/-- C13, as stated, fails when `p` and `p2` are the same body: `p.Merge(p)` on a body of mass 1
leaves it with mass 2, so a field of `p2` has changed. -/
theorem Merge_aliased_changes_argument :
    ((Merge Real.sqrt Real.pi (fun _ => (⟨⟨0, 0⟩, ⟨0, 0⟩, 1, 1⟩ : Planet ℝ)) 0 0) 0).Mass = 2
      ∧ ((Merge Real.sqrt Real.pi (fun _ => (⟨⟨0, 0⟩, ⟨0, 0⟩, 1, 1⟩ : Planet ℝ)) 0 0) 0).Mass
        ≠ ((fun _ => (⟨⟨0, 0⟩, ⟨0, 0⟩, 1, 1⟩ : Planet ℝ)) (0 : Ptr)).Mass := by
  have hm : ((Merge Real.sqrt Real.pi (fun _ => (⟨⟨0, 0⟩, ⟨0, 0⟩, 1, 1⟩ : Planet ℝ)) 0 0)
      0).Mass = 2 := by
    simp only [Merge, Function.update_same]
    norm_num
  refine ⟨hm, ?_⟩
  rw [hm]
  norm_num

/-! ### Evaluation in `float32` and `float64` arithmetic -/

theorem f32_u : roundBinary 24 (1 / 2 ^ 19 : ℝ) = 1 / 2 ^ 19 :=
  roundBinary_exact 24 _ (-19) (2 ^ 23) (by norm_num [abs_of_pos]) (by norm_num [abs_of_pos])
    (by norm_num)

theorem f32_r : roundBinary 24 (3 / 4 / 2 ^ 19 : ℝ) = 3 / 4 / 2 ^ 19 :=
  roundBinary_exact 24 _ (-20) (3 * 2 ^ 22) (by norm_num [abs_of_pos])
    (by norm_num [abs_of_pos]) (by norm_num)

theorem f32_x : roundBinary 24 (16 + 1 / 2 ^ 19 : ℝ) = 16 + 1 / 2 ^ 19 :=
  roundBinary_exact 24 _ 4 (2 ^ 23 + 1) (by norm_num [abs_of_pos]) (by norm_num [abs_of_pos])
    (by norm_num)

theorem f64_x : roundBinary 53 (16 + 1 / 2 ^ 19 : ℝ) = 16 + 1 / 2 ^ 19 :=
  roundBinary_exact 53 _ 4 ((2 ^ 23 + 1) * 2 ^ 29) (by norm_num [abs_of_pos])
    (by norm_num [abs_of_pos]) (by norm_num)

theorem f64_xx : roundBinary 53 ((16 + 1 / 2 ^ 19) ^ 2 : ℝ) = (16 + 1 / 2 ^ 19) ^ 2 :=
  roundBinary_exact 53 _ 8 ((2 ^ 23 + 1) ^ 2 * 2 ^ 6) (by norm_num [abs_of_pos])
    (by norm_num [abs_of_pos]) (by norm_num)

theorem f32_thr : roundBinary 24 (16 + 3 / 4 / 2 ^ 19 : ℝ) = 16 + 1 / 2 ^ 19 := by
  rw [roundBinary_eq 24 _ 4 (2 ^ 23 + 1) (by norm_num [abs_of_pos]) (by norm_num [abs_of_pos])
    (by norm_num [abs_lt])]
  norm_num

theorem tightPair_distance :
    (NewPlanet (16 + 1 / 2 ^ 19 : ℝ) 0 16).DistanceFl (roundBinary 24) (roundBinary 53) Real.sqrt
        (NewPlanet 0 0 (3 / 4 / 2 ^ 19))
      = 16 + 1 / 2 ^ 19 := by
  have hpos : (0 : ℝ) ≤ 16 + 1 / 2 ^ 19 := by norm_num
  simp only [Planet.DistanceFl, NewPlanet, sub_zero, f32_x, roundBinary_zero]
  rw [if_neg (by norm_num), if_neg (by norm_num)]
  simp only [ne_eq, OfNat.ofNat_ne_zero, not_false_eq_true, zero_pow, roundBinary_zero, add_zero,
    f64_xx, Real.sqrt_sq hpos, f64_x, f32_x]

theorem tightPair_box :
    roundBinary 24 (16 + 1 / 2 ^ 19 - 16 : ℝ) > roundBinary 24 (0 + 3 / 4 / 2 ^ 19 : ℝ) := by
  have e1 : (16 + 1 / 2 ^ 19 - 16 : ℝ) = 1 / 2 ^ 19 := by norm_num
  have e2 : (0 + 3 / 4 / 2 ^ 19 : ℝ) = 3 / 4 / 2 ^ 19 := by norm_num
  rw [e1, e2, f32_u, f32_r]
  norm_num

/-- C4, the failing input, in `float32` and `float64` arithmetic. Body 0 has centre
`(16 + 2^-19, 0)` and radius 16, body 1 has centre `(0, 0)` and radius `0.75 * 2^-19`. The box
test rejects the pair in both orientations, so the collision list is empty; yet the distance test
of the same loop body accepts it: the distance `16 + 2^-19` is at most the rounded sum of the
radii, which is `16 + 2^-19` too. The block that the source calls an optimization that can be
removed changes the result. -/
theorem detect_box_filter_changes_result :
    detectFl (roundBinary 24) (roundBinary 53) Real.sqrt
        (fun q => if q = 0 then NewPlanet (16 + 1 / 2 ^ 19 : ℝ) 0 16
          else NewPlanet 0 0 (3 / 4 / 2 ^ 19)) [0, 1] = []
      ∧ (NewPlanet (16 + 1 / 2 ^ 19 : ℝ) 0 16).DistanceFl (roundBinary 24) (roundBinary 53)
          Real.sqrt (NewPlanet 0 0 (3 / 4 / 2 ^ 19))
        ≤ roundBinary 24 ((NewPlanet (16 + 1 / 2 ^ 19 : ℝ) 0 16).Radius
            + (NewPlanet (0 : ℝ) 0 (3 / 4 / 2 ^ 19)).Radius) := by
  constructor
  · unfold detectFl
    rw [pairLoop_eq _ (detectPairFl_acc _ _ _ _)]
    have h00 : ∀ c : Ptr, detectPairFl (roundBinary 24) (roundBinary 53) Real.sqrt
        (fun q => if q = 0 then NewPlanet (16 + 1 / 2 ^ 19 : ℝ) 0 16
            else NewPlanet 0 0 (3 / 4 / 2 ^ 19)) c c [] = [] := by
      intro c; simp [detectPairFl]
    have h01 : detectPairFl (roundBinary 24) (roundBinary 53) Real.sqrt
        (fun q => if q = 0 then NewPlanet (16 + 1 / 2 ^ 19 : ℝ) 0 16
            else NewPlanet 0 0 (3 / 4 / 2 ^ 19)) 0 1 [] = [] := by
      unfold detectPairFl
      rw [if_neg (by decide)]
      simp only [if_true, one_ne_zero, if_false, NewPlanet]
      rw [if_pos (Or.inr (Or.inl tightPair_box))]
    have h10 : detectPairFl (roundBinary 24) (roundBinary 53) Real.sqrt
        (fun q => if q = 0 then NewPlanet (16 + 1 / 2 ^ 19 : ℝ) 0 16
            else NewPlanet 0 0 (3 / 4 / 2 ^ 19)) 1 0 [] = [] := by
      unfold detectPairFl
      rw [if_neg (by decide)]
      simp only [if_true, one_ne_zero, if_false, NewPlanet]
      rw [if_pos (Or.inl tightPair_box)]
    simp only [List.flatMap_cons, List.flatMap_nil, List.append_nil, h00, h01, h10]
  · rw [tightPair_distance]
    simp only [NewPlanet]
    rw [f32_thr]

theorem AddPartialylFl_radius {R : Type} [LinearOrderedField R] (f32 f64 sqrt : R → R)
    (h : Heap R) (p p2 : Ptr) (hne : p ≠ p2) (d o g root x1 x2 : R)
    (hd : (h p).DistanceFl f32 f64 sqrt (h p2) = d) (hd0 : ¬ d < 0)
    (ho : f64 (f32 ((h p).Radius + (h p2).Radius) - d) = o) (ho0 : ¬ o < 0)
    (hor : ¬ (h p2).Radius < o)
    (hg : g = f64 (f64 (f64 (o * o) / 2) - f64 ((h p2).Radius * o)))
    (hroot : root = f64 (sqrt (f64 (f64 (d ^ 2) - f64 (4 * g)))))
    (hx1 : x1 = f64 (f64 (-d + root) / 2)) (hx2 : x2 = f64 (f64 (-d - root) / 2)) :
    (AddPartialylFl f32 f64 sqrt h p p2).2 = none
      ∧ ((AddPartialylFl f32 f64 sqrt h p p2).1 p).Radius
        = f32 ((h p).Radius + f32 (if x1 > 0 then x1 else if x2 > 0 then x2 else 0))
      ∧ ((AddPartialylFl f32 f64 sqrt h p p2).1 p2).Radius
        = f32 ((h p2).Radius
            + f32 (f64 ((if x1 > 0 then x1 else if x2 > 0 then x2 else 0) - o))) := by
  have hne' : p2 ≠ p := fun e => hne e.symm
  subst hx1 hx2 hroot hg
  unfold AddPartialylFl
  simp only [hd, if_neg hd0, ho, if_neg ho0, if_neg hor, Function.update_same,
    Function.update_noteq hne, Function.update_noteq hne']
  exact ⟨trivial, trivial, trivial⟩

theorem f32_D0 : roundBinary 24 (17 - 1 / 2 ^ 19 : ℝ) = 17 - 1 / 2 ^ 19 :=
  roundBinary_exact 24 _ 4 (17 * 2 ^ 19 - 1) (by norm_num [abs_of_pos])
    (by norm_num [abs_of_pos]) (by norm_num)

theorem f64_D0 : roundBinary 53 (17 - 1 / 2 ^ 19 : ℝ) = 17 - 1 / 2 ^ 19 :=
  roundBinary_exact 53 _ 4 ((17 * 2 ^ 19 - 1) * 2 ^ 29) (by norm_num [abs_of_pos])
    (by norm_num [abs_of_pos]) (by norm_num)

theorem f64_D0sq : roundBinary 53 ((17 - 1 / 2 ^ 19) ^ 2 : ℝ) = (17 - 1 / 2 ^ 19) ^ 2 :=
  roundBinary_exact 53 _ 8 ((17 * 2 ^ 19 - 1) ^ 2 * 2 ^ 6) (by norm_num [abs_of_pos])
    (by norm_num [abs_of_pos]) (by norm_num)

theorem f32_17 : roundBinary 24 (17 : ℝ) = 17 :=
  roundBinary_exact 24 _ 4 (17 * 2 ^ 19) (by norm_num [abs_of_pos])
    (by norm_num [abs_of_pos]) (by norm_num)

theorem f64_u : roundBinary 53 (1 / 2 ^ 19 : ℝ) = 1 / 2 ^ 19 :=
  roundBinary_exact 53 _ (-19) (2 ^ 52) (by norm_num [abs_of_pos]) (by norm_num [abs_of_pos])
    (by norm_num)

theorem f64_uu : roundBinary 53 (1 / 2 ^ 38 : ℝ) = 1 / 2 ^ 38 :=
  roundBinary_exact 53 _ (-38) (2 ^ 52) (by norm_num [abs_of_pos]) (by norm_num [abs_of_pos])
    (by norm_num)

theorem f64_uu2 : roundBinary 53 (1 / 2 ^ 39 : ℝ) = 1 / 2 ^ 39 :=
  roundBinary_exact 53 _ (-39) (2 ^ 52) (by norm_num [abs_of_pos]) (by norm_num [abs_of_pos])
    (by norm_num)

theorem f64_g : roundBinary 53 (1 / 2 ^ 39 - 1 / 2 ^ 19 : ℝ) = 1 / 2 ^ 39 - 1 / 2 ^ 19 :=
  roundBinary_exact 53 _ (-20) (-((2 ^ 20 - 1) * 2 ^ 33)) (by norm_num [abs_of_neg])
    (by norm_num [abs_of_neg]) (by norm_num)

theorem f64_4g :
    roundBinary 53 (4 * (1 / 2 ^ 39 - 1 / 2 ^ 19) : ℝ) = 4 * (1 / 2 ^ 39 - 1 / 2 ^ 19) :=
  roundBinary_exact 53 _ (-18) (-((2 ^ 20 - 1) * 2 ^ 33)) (by norm_num [abs_of_neg])
    (by norm_num [abs_of_neg]) (by norm_num)

theorem f64_Dv :
    roundBinary 53 ((17 - 1 / 2 ^ 19) ^ 2 - 4 * (1 / 2 ^ 39 - 1 / 2 ^ 19) : ℝ)
      = (17 - 1 / 2 ^ 19) ^ 2 - 4 * (1 / 2 ^ 39 - 1 / 2 ^ 19) :=
  roundBinary_exact 53 _ 8 ((289 * 2 ^ 38 - 15 * 2 ^ 20 - 1) * 2 ^ 6)
    (by norm_num [abs_of_pos]) (by norm_num [abs_of_pos]) (by norm_num)

theorem stuckPair_distance :
    (NewPlanet (0 : ℝ) 0 16).DistanceFl (roundBinary 24) (roundBinary 53) Real.sqrt
        (NewPlanet (17 - 1 / 2 ^ 19) 0 1)
      = 17 - 1 / 2 ^ 19 := by
  have hpos : (0 : ℝ) ≤ 17 - 1 / 2 ^ 19 := by norm_num
  have hneg : roundBinary 24 ((0 : ℝ) - (17 - 1 / 2 ^ 19)) = -(17 - 1 / 2 ^ 19) := by
    rw [zero_sub, roundBinary_neg, f32_D0]
  simp only [Planet.DistanceFl, NewPlanet, hneg, sub_zero, roundBinary_zero]
  rw [if_pos (by norm_num), if_neg (by norm_num), neg_neg]
  simp only [ne_eq, OfNat.ofNat_ne_zero, not_false_eq_true, zero_pow, roundBinary_zero, add_zero,
    f64_D0sq, Real.sqrt_sq hpos, f64_D0, f32_D0]

theorem stuckPair_root :
    0 ≤ roundBinary 53
        (Real.sqrt ((17 - 1 / 2 ^ 19) ^ 2 - 4 * (1 / 2 ^ 39 - 1 / 2 ^ 19)))
      ∧ roundBinary 53
          (Real.sqrt ((17 - 1 / 2 ^ 19) ^ 2 - 4 * (1 / 2 ^ 39 - 1 / 2 ^ 19)))
        ≤ 17 - 1 / 2 ^ 19 + 1 / 2 ^ 22 + 1 / 2 ^ 49 := by
  have hs0 := Real.sqrt_nonneg ((17 - 1 / 2 ^ 19) ^ 2 - 4 * (1 / 2 ^ 39 - 1 / 2 ^ 19) : ℝ)
  have hlo : (16 : ℝ) ≤ Real.sqrt ((17 - 1 / 2 ^ 19) ^ 2 - 4 * (1 / 2 ^ 39 - 1 / 2 ^ 19)) := by
    apply Real.le_sqrt_of_sq_le; norm_num
  have hhi : Real.sqrt ((17 - 1 / 2 ^ 19) ^ 2 - 4 * (1 / 2 ^ 39 - 1 / 2 ^ 19))
      ≤ 17 - 1 / 2 ^ 19 + 1 / 2 ^ 22 := by
    rw [Real.sqrt_le_left (by norm_num)]; norm_num
  have key : ∀ s : ℝ, 16 ≤ s → s ≤ 17 - 1 / 2 ^ 19 + 1 / 2 ^ 22 →
      0 ≤ roundBinary 53 s ∧ roundBinary 53 s ≤ 17 - 1 / 2 ^ 19 + 1 / 2 ^ 22 + 1 / 2 ^ 49 := by
    intro s h16 hB
    have hs : 0 ≤ s := by linarith
    have h32 : s < 32 := by
      have : (17 - 1 / 2 ^ 19 + 1 / 2 ^ 22 : ℝ) < 32 := by norm_num
      linarith
    have herr := roundBinary_err 53 s 4
      (by rw [abs_of_nonneg hs]; norm_num; exact h16)
      (by rw [abs_of_nonneg hs]; norm_num; exact h32)
    have hq : (2 : ℝ) ^ ((4 : Int) - (((53 : Nat) : Int) - 1)) / 2 = 1 / 2 ^ 49 := by norm_num
    rw [hq] at herr
    obtain ⟨h1, h2⟩ := abs_le.1 herr
    exact ⟨roundBinary_nonneg 53 _ hs, by linarith⟩
  exact key _ hlo hhi

theorem f32_near_16 (y : ℝ) (h0 : 0 ≤ y) (h1 : y ≤ (2 : ℝ) ^ (-22 : Int)) :
    roundBinary 24 (16 + y) = 16 := by
  have hy : y ≤ 1 / 2 ^ 22 := by
    have : (2 : ℝ) ^ (-22 : Int) = 1 / 2 ^ 22 := by norm_num
    rw [← this]; exact h1
  have hpos : (0 : ℝ) < 16 + y := by linarith
  have hq : (2 : ℝ) ^ ((4 : Int) - (((24 : Nat) : Int) - 1)) = 1 / 2 ^ 19 := by norm_num
  rw [roundBinary_eq 24 (16 + y) 4 (2 ^ 23)
    (by rw [abs_of_pos hpos]; norm_num; exact h0)
    (by rw [abs_of_pos hpos]; norm_num; linarith)
    (by
      rw [hq, abs_lt]
      have e : (16 + y) / (1 / 2 ^ 19) - ((2 ^ 23 : Int) : ℝ) = y * 2 ^ 19 := by
        push_cast; field_simp; ring
      rw [e]
      constructor
      · nlinarith
      · have : y * 2 ^ 19 ≤ 1 / 2 ^ 22 * 2 ^ 19 := mul_le_mul_of_nonneg_right hy (by norm_num)
        have h8 : (1 / 2 ^ 22 * 2 ^ 19 : ℝ) = 1 / 8 := by norm_num
        linarith)]
  rw [hq]; norm_num

/-- C8, as stated, fails in the code's arithmetic. Body 0 has centre `(0, 0)` and radius 16,
body 1 has centre `(17 - 2^-19, 0)` and radius 1: the radii are non-negative, the distance
`17 - 2^-19` is below the sum 17 of the radii, and the overlap `2^-19` is at most the radius 1.
In `float32` and `float64` arithmetic the call returns `nil` and the radius of the absorber is
16 after the call as before it: the transfer amount is below half a unit in the last place of
16 and is rounded away. -/
theorem AddPartialyl_growth_rounded_away :
    (NewPlanet (0 : ℝ) 0 16).Distance Real.sqrt (NewPlanet (17 - 1 / 2 ^ 19) 0 1)
        = 17 - 1 / 2 ^ 19
      ∧ (AddPartialylFl (roundBinary 24) (roundBinary 53) Real.sqrt
        (fun q => if q = 0 then NewPlanet (0 : ℝ) 0 16 else NewPlanet (17 - 1 / 2 ^ 19) 0 1)
        0 1).2 = none
      ∧ ((AddPartialylFl (roundBinary 24) (roundBinary 53) Real.sqrt
        (fun q => if q = 0 then NewPlanet (0 : ℝ) 0 16 else NewPlanet (17 - 1 / 2 ^ 19) 0 1)
        0 1).1 0).Radius = 16 := by
  refine ⟨by rw [Distance_on_axis _ _ _ _ (by norm_num)]; norm_num, ?_⟩
  obtain ⟨hr0, hr1⟩ := stuckPair_root
  have h17 : roundBinary 24 ((16 : ℝ) + 1) = 17 := by
    rw [show ((16 : ℝ) + 1) = 17 by norm_num, f32_17]
  have ho : roundBinary 53 ((17 : ℝ) - (17 - 1 / 2 ^ 19)) = 1 / 2 ^ 19 := by
    rw [show ((17 : ℝ) - (17 - 1 / 2 ^ 19)) = 1 / 2 ^ 19 by norm_num, f64_u]
  have hg : (1 / 2 ^ 39 - 1 / 2 ^ 19 : ℝ)
      = roundBinary 53 (roundBinary 53 (roundBinary 53 (1 / 2 ^ 19 * (1 / 2 ^ 19)) / 2)
          - roundBinary 53 (1 * (1 / 2 ^ 19))) := by
    rw [show (1 / 2 ^ 19 * (1 / 2 ^ 19) : ℝ) = 1 / 2 ^ 38 by norm_num, f64_uu,
      show (1 / 2 ^ 38 / 2 : ℝ) = 1 / 2 ^ 39 by norm_num, f64_uu2, one_mul, f64_u, f64_g]
  obtain ⟨hnil, hrad, _⟩ := AddPartialylFl_radius (roundBinary 24) (roundBinary 53) Real.sqrt
    (fun q => if q = 0 then NewPlanet (0 : ℝ) 0 16 else NewPlanet (17 - 1 / 2 ^ 19) 0 1) 0 1
    (by decide) (17 - 1 / 2 ^ 19) (1 / 2 ^ 19) (1 / 2 ^ 39 - 1 / 2 ^ 19)
    (roundBinary 53 (Real.sqrt ((17 - 1 / 2 ^ 19) ^ 2 - 4 * (1 / 2 ^ 39 - 1 / 2 ^ 19))))
    _ _
    (by simp only [if_true, one_ne_zero, if_false]; exact stuckPair_distance)
    (by norm_num)
    (by simp only [if_true, one_ne_zero, if_false, NewPlanet]; rw [h17, ho])
    (by norm_num)
    (by simp only [if_true, one_ne_zero, if_false, NewPlanet]; norm_num)
    (by simp only [if_true, one_ne_zero, if_false, NewPlanet]; exact hg)
    (by rw [f64_D0sq, f64_4g, f64_Dv])
    rfl rfl
  refine ⟨hnil, ?_⟩
  rw [hrad]
  simp only [if_true, NewPlanet]
  have ht : roundBinary 53 (-(17 - 1 / 2 ^ 19)
      + roundBinary 53 (Real.sqrt ((17 - 1 / 2 ^ 19) ^ 2 - 4 * (1 / 2 ^ 39 - 1 / 2 ^ 19))))
      ≤ (2 : ℝ) ^ (-21 : Int) := by
    apply roundBinary_le_two_zpow 53 (by norm_num)
    have : (2 : ℝ) ^ (-21 : Int) = 1 / 2 ^ 21 := by norm_num
    rw [this]
    have : (1 / 2 ^ 22 + 1 / 2 ^ 49 : ℝ) ≤ 1 / 2 ^ 21 := by norm_num
    linarith
  have hx1 : roundBinary 53 (roundBinary 53 (-(17 - 1 / 2 ^ 19)
      + roundBinary 53 (Real.sqrt ((17 - 1 / 2 ^ 19) ^ 2 - 4 * (1 / 2 ^ 39 - 1 / 2 ^ 19)))) / 2)
      ≤ (2 : ℝ) ^ (-22 : Int) := by
    apply roundBinary_le_two_zpow 53 (by norm_num)
    have e : (2 : ℝ) ^ (-22 : Int) = (2 : ℝ) ^ (-21 : Int) / 2 := by norm_num
    rw [e]
    linarith
  have hx2 : roundBinary 53 (roundBinary 53 (-(17 - 1 / 2 ^ 19)
      - roundBinary 53 (Real.sqrt ((17 - 1 / 2 ^ 19) ^ 2 - 4 * (1 / 2 ^ 39 - 1 / 2 ^ 19)))) / 2)
      ≤ 0 := by
    apply roundBinary_nonpos
    have := roundBinary_nonpos 53 (-(17 - 1 / 2 ^ 19)
      - roundBinary 53 (Real.sqrt ((17 - 1 / 2 ^ 19) ^ 2 - 4 * (1 / 2 ^ 39 - 1 / 2 ^ 19))))
      (by
        have : (0 : ℝ) ≤ 17 - 1 / 2 ^ 19 := by norm_num
        linarith)
    linarith
  have hsel : ∀ a b : ℝ, a ≤ (2 : ℝ) ^ (-22 : Int) → b ≤ 0 →
      0 ≤ (if a > 0 then a else if b > 0 then b else 0)
        ∧ (if a > 0 then a else if b > 0 then b else 0) ≤ (2 : ℝ) ^ (-22 : Int) := by
    intro a b ha hb
    have hp : (0 : ℝ) ≤ (2 : ℝ) ^ (-22 : Int) := (zpow_pos (by norm_num) _).le
    split_ifs with h1 h2
    · exact ⟨le_of_lt h1, ha⟩
    · exact absurd h2 (not_lt.2 hb)
    · exact ⟨le_refl 0, hp⟩
  obtain ⟨hs0, hs1⟩ := hsel _ _ hx1 hx2
  exact f32_near_16 _ (roundBinary_nonneg 24 _ hs0)
    (roundBinary_le_two_zpow 24 (by norm_num) _ _ hs1)
end Planetarium
